import Mathlib

/-!
Shallow embedding of `src/schnetpack/representation/painn.py`.

Tensors are nested lists of real numbers.  A tensor of shape `[a, b, c]`
is a `List (List (List ℝ))` whose outer list has length `a`, etc.
Fallible tensor operations (shape checks, index checks, malformed calls)
return `Except Err _`; the `Err` constructors distinguish the three kinds
of runtime failure relevant here:

* `Err.shape`     — a shape/broadcast mismatch (torch `RuntimeError`),
* `Err.index`     — an index outside the valid range (torch `IndexError`),
* `Err.typeError` — a call with a wrong number of arguments (Python
  `TypeError`), which `painn.py` line 136 triggers unconditionally.

Functions that may execute the stray `print()` on line 33 of the source
additionally return a `Nat` counting how many times `print` ran.
-/

noncomputable section

inductive Err where
  | shape
  | index
  | typeError
deriving DecidableEq

abbrev T1 := List ℝ
abbrev T2 := List T1
abbrev T3 := List T2
abbrev T4 := List T3

/-- Whether an `Except` computation produced a value. -/
def isOkE {α : Type} : Except Err α → Bool
  | .ok _ => true
  | .error _ => false

/-- Sequential fallible map over a list (the order in which torch raises). -/
def emap {α β : Type} (f : α → Except Err β) : List α → Except Err (List β)
  | [] => .ok []
  | a :: l =>
    match f a with
    | .error e => .error e
    | .ok b =>
      match emap f l with
      | .error e => .error e
      | .ok bs => .ok (b :: bs)

/-- Fallible zip of two lists that must have equal length (used for tensor
dimensions that torch requires to agree exactly, e.g. `einsum` batch dims
and non-concatenated dims of `torch.cat`). -/
def ezip {α β γ : Type} (g : α → β → Except Err γ) : List α → List β → Except Err (List γ)
  | [], [] => .ok []
  | a :: as, b :: bs =>
    match g a b with
    | .error e => .error e
    | .ok c =>
      match ezip g as bs with
      | .error e => .error e
      | .ok cs => .ok (c :: cs)
  | _, _ => .error .shape

/-- Broadcasting combination of the innermost (real-valued) dimension:
torch semantics — sizes must agree, or a size-1 side is expanded. -/
def bzipR (f : ℝ → ℝ → ℝ) (xs ys : T1) : Except Err T1 :=
  if xs.length = ys.length then .ok (List.zipWith f xs ys)
  else
    match xs, ys with
    | [x], _ => .ok (ys.map (fun b => f x b))
    | _, [y] => .ok (xs.map (fun a => f a y))
    | _, _ => .error .shape

/-- Broadcasting combination of an outer dimension: sizes must agree, or a
size-1 side is expanded; the payload combiner may itself fail. -/
def bzipL {α β γ : Type} (g : α → β → Except Err γ) (xs : List α) (ys : List β) :
    Except Err (List γ) :=
  if xs.length = ys.length then ezip g xs ys
  else
    match xs, ys with
    | [x], _ => emap (fun b => g x b) ys
    | _, [y] => emap (fun a => g a y) xs
    | _, _ => .error .shape

/-- Elementwise product of rank-2 tensors with torch broadcasting. -/
def bmul2 : T2 → T2 → Except Err T2 := bzipL (bzipR (· * ·))

/-- Elementwise product of rank-3 tensors with torch broadcasting. -/
def bmul3 : T3 → T3 → Except Err T3 := bzipL bmul2

/-- Elementwise sum of rank-2 tensors with torch broadcasting. -/
def badd2 : T2 → T2 → Except Err T2 := bzipL (bzipR (· + ·))

/-- Elementwise sum of rank-3 tensors with torch broadcasting. -/
def badd3 : T3 → T3 → Except Err T3 := bzipL badd2

/-- `torch.cat([t, u], dim=-1)` on rank-3 tensors: leading dims must agree. -/
def catLast3 (t u : T3) : Except Err T3 :=
  ezip (fun a b => ezip (fun r s => .ok (r ++ s)) a b) t u

/-- Exact (non-broadcast) elementwise addition, as used by the grouped-sum
accumulation (`index_add` requires the slice shapes to agree exactly). -/
def zadd1 : T1 → T1 → T1 := List.zipWith (· + ·)

/-- Exact elementwise addition of rank-2 slices. -/
def zadd2 : T2 → T2 → T2 := List.zipWith zadd1

/-- torch advanced indexing `t[i]` for one integer index: valid iff
`-n ≤ i < n`, a negative index wrapping around to `i + n`. -/
def gather1 {α : Type} (t : List α) (i : Int) : Except Err α :=
  let j : Int := if i < 0 then i + t.length else i
  if h : 0 ≤ j ∧ j.toNat < t.length then .ok (t.get ⟨j.toNat, h.2⟩)
  else .error .index

/-- torch advanced indexing `t[idx]` with an index tensor. -/
def gather {α : Type} (t : List α) (idx : List Int) : Except Err (List α) :=
  emap (gather1 t) idx

/-- A slice of zeros with the same shape as `t`. -/
def zerosLike2 (t : T2) : T2 := t.map (fun r => r.map (fun _ => (0 : ℝ)))

/-- One accumulation step of the grouped sum: add slice `v` into bucket `i`. -/
def scatterStep (buckets : List T2) (v : T2) (i : Int) : Except Err (List T2) :=
  if h : 0 ≤ i ∧ i.toNat < buckets.length then
    .ok (buckets.set i.toNat (zadd2 (buckets.get ⟨i.toNat, h.2⟩) v))
  else .error .index

/-- Accumulate a list of (slice, target index) pairs into the buckets. -/
def scatterAux (buckets : List T2) : List (T2 × Int) → Except Err (List T2)
  | [] => .ok buckets
  | (v, i) :: rest =>
    match scatterStep buckets v i with
    | .error e => .error e
    | .ok b2 => scatterAux b2 rest

/-- Modelled from the spec: `snn.scatter_add` is not under `src/`; §6 of the
spec describes it as `grouped-sum(values, index, output_size)`, an
order-independent aggregation into `output_size` buckets initialised to
zero, indices referencing valid atoms.  Out-of-range bucket indices are
fatal `IndexOutOfRange` conditions (§7). -/
def scatterAdd (vals : List T2) (idx : List Int) (n : Nat) : Except Err (List T2) :=
  if vals.length = idx.length then
    scatterAux (List.replicate n (zerosLike2 (vals.headD []))) (vals.zip idx)
  else .error .shape

/-- `torch.transpose(·, 1, 2)` on a rectangular rank-3 tensor, written so
that entry lemmas are direct (agrees with torch on rectangular inputs). -/
def tr2 (m : T2) : T2 :=
  (List.range (m.headD []).length).map (fun j => m.map (fun r => r.getD j 0))

/-- Swap dims 1 and 2 of a rank-3 tensor. -/
def transpose12 (t : T3) : T3 := t.map tr2

/-- Sum of a list of equally long rows (used for reductions over a tensor
dimension); the empty sum has no shape metadata, as a length-0 list. -/
def sumRows : T2 → T1
  | [] => []
  | [r] => r
  | r :: rs => zadd1 r (sumRows rs)

/-- Sum of a list of equally shaped matrices. -/
def sumMats : List T2 → T2
  | [] => []
  | [m] => m
  | m :: ms => zadd2 m (sumMats ms)

/-- Euclidean norm of the last dimension, `torch.norm(v, dim=-1)`. -/
def norm1 (v : T1) : ℝ := Real.sqrt ((v.map (fun x => x ^ 2)).sum)

/-- `torch.nn.ReLU`. -/
def relu (x : ℝ) : ℝ := max x 0

/-- `torch.nn.Softmax(dim=-1)` on one row. -/
def softmax (xs : T1) : T1 :=
  xs.map (fun x => Real.exp x / (xs.map Real.exp).sum)

/-- `torch.nn.Linear`: weights is the `[out, in]` matrix; applying the layer
to a row whose length differs from `inF` is a fatal shape error. -/
structure LinearM where
  inF : Nat
  weight : T2
  bias : T1

/-- Dot product of two rows. -/
def dot (xs ys : T1) : ℝ := (List.zipWith (· * ·) xs ys).sum

def LinearM.run (m : LinearM) (x : T1) : Except Err T1 :=
  if x.length = m.inF then
    .ok (List.zipWith (fun row b => dot row x + b) m.weight m.bias)
  else .error .shape

/-- Apply a linear layer to the last dimension of a rank-3 tensor. -/
def LinearM.run3 (m : LinearM) (t : T3) : Except Err T3 :=
  emap (emap m.run) t

/-- Modelled from the spec: `snn.Dense` is not under `src/`; per §4 of the
spec it is a linear map on the last dimension followed by an optional
nonlinearity (`activation=None` is the identity). -/
structure DenseM where
  lin : LinearM
  act : ℝ → ℝ

def DenseM.run3 (d : DenseM) (t : T3) : Except Err T3 :=
  match d.lin.run3 t with
  | .error e => .error e
  | .ok u => .ok (u.map (fun m => m.map (fun r => r.map d.act)))

/-! ### EquivariantCompressionLayer (painn.py lines 13-38) -/

/-- Learned parameters of `EquivariantCompressionLayer.fc_scalar_weights`:
`nn.Linear(num_vector_channels, 32) → ReLU → nn.Linear(32, compressed_channels)
→ Softmax(dim=-1)`. -/
structure CompressionP where
  l1 : LinearM
  l2 : LinearM

/-- Per-channel invariant norms, `torch.norm(vectors, dim=-1)` (line 27). -/
def chanNorms (vectors : T3) : T2 := vectors.map (fun chs => chs.map norm1)

/-- One row through `fc_scalar_weights`: `Linear → ReLU → Linear → Softmax`
(lines 16-21). -/
def compressionNet (p : CompressionP) (nb : T1) : Except Err T1 :=
  match p.l1.run nb with
  | .error e => .error e
  | .ok h1 =>
    match p.l2.run (h1.map relu) with
    | .error e => .error e
    | .ok h2 => .ok (softmax h2)

/-- `self.fc_scalar_weights(scalar_invariants)` (line 30). -/
def compressionWeights (p : CompressionP) (vectors : T3) : Except Err T2 :=
  emap (compressionNet p) (chanNorms vectors)

/-- `torch.einsum('bvc,bl->blc', vectors, weights)` (line 34):
`out[b,l,c] = Σ_v vectors[b,v,c] * weights[b,l]`. -/
def einsumBvcBl (vectors : T3) (weights : T2) : Except Err T3 :=
  ezip
    (fun chs wrow =>
      .ok (wrow.map (fun w => sumRows (chs.map (fun ch => ch.map (fun x => x * w))))))
    vectors weights

/-- `EquivariantCompressionLayer.forward` (lines 23-38).  The `Nat`
component counts executions of the stray `print()` on line 33, which runs
after the weight network succeeded and before the einsum. -/
def compressionForward (p : CompressionP) (vectors : T3) : Except Err T3 × Nat :=
  match compressionWeights p vectors with
  | .error e => (.error e, 0)
  | .ok w =>
    match einsumBvcBl vectors w with
    | .error e => (.error e, 1)
    | .ok out => (.ok out, 1)

/-! ### EquivariantReconstructionLayer (painn.py lines 40-72) -/

/-- Learned parameters of `EquivariantReconstructionLayer`: the channel
counts and `fc_scalars = nn.Linear(C, 32) → ReLU → nn.Linear(32, R*C)`. -/
structure ReconP where
  compressedChannels : Nat
  reconstructedChannels : Nat
  l1 : LinearM
  l2 : LinearM

/-- `.view(-1, R, C)` of one batch row of length `R*C` (line 58). -/
def viewRC (r c : Nat) (xs : T1) : Except Err T2 :=
  if xs.length = r * c then
    .ok ((List.range r).map (fun i => (List.range c).map (fun j => xs.getD (i * c + j) 0)))
  else .error .shape

/-- Self outer product `torch.einsum('bci,bcj->bcij', v, v)` for one
channel (line 64). -/
def outerSelf (v : T1) : T2 := v.map (fun a => v.map (fun b => a * b))

/-- Scale a matrix by an invariant coefficient. -/
def scaleMat (w : ℝ) (m : T2) : T2 := m.map (fun r => r.map (fun x => w * x))

/-- `torch.einsum('brc,bcij->brij', scalar_weights, rank2_tensors)`
(line 69): `out[b,r] = Σ_c w[b,r,c] • T[b,c]`, the `c` sizes agreeing or
one of them broadcasting from 1. -/
def einsumBrcBcij (coeff : T3) (tensors : T4) : Except Err T4 :=
  ezip
    (fun cb tb =>
      emap
        (fun wrow =>
          match bzipL (fun w m => .ok (scaleMat w m)) wrow tb with
          | .error e => .error e
          | .ok scaled => .ok (sumMats scaled))
        cb)
    coeff tensors

/-- One row through `fc_scalars` (`Linear → ReLU → Linear`, lines 45-49)
followed by the `.view(-1, R, C)` reshape. -/
def reconNet (p : ReconP) (nb : T1) : Except Err T2 :=
  match p.l1.run nb with
  | .error e => .error e
  | .ok h1 =>
    match p.l2.run (h1.map relu) with
    | .error e => .error e
    | .ok h2 => viewRC p.reconstructedChannels p.compressedChannels h2

/-- `fc_scalars` then `.view(-1, R, C)` (lines 58-60). -/
def reconCoeff (p : ReconP) (cv : T3) : Except Err T3 :=
  emap (reconNet p) (chanNorms cv)

/-- `EquivariantReconstructionLayer.forward` (lines 51-72). -/
def reconForward (p : ReconP) (cv : T3) : Except Err T4 :=
  match reconCoeff p cv with
  | .error e => .error e
  | .ok coeff =>
    einsumBrcBcij coeff (cv.map (fun chs => chs.map outerSelf))

/-! ### PaiNNInteraction (painn.py lines 74-141) -/

/-- Learned parameters of a `PaiNNInteraction` block: `n_atom_basis` and
the two `interatomic_context_net` layers (`Dense(F, F, activation)` then
`Dense(F, 3F, None)`), plus the compression and reconstruction layers the
constructor builds with `num_vector_channels = 2F`, `compressed_channels =
F`, `reconstructed_channels = F` (lines 86-97). -/
structure InteractionP where
  nAtomBasis : Nat
  d1 : DenseM
  d2 : DenseM
  comp : CompressionP
  recon : ReconP

/-- `torch.split(x, sz, dim=-1)` of one width-`3*sz` row into the three
blocks destructured on line 128. -/
def split3Row (sz : Nat) (r : T1) : Except Err (T1 × T1 × T1) :=
  if r.length = 3 * sz then .ok (r.take sz, (r.drop sz).take sz, (r.drop sz).drop sz)
  else .error .shape

def split3T2 (sz : Nat) : T2 → Except Err (T2 × T2 × T2)
  | [] => .ok ([], [], [])
  | r :: rs =>
    match split3Row sz r with
    | .error e => .error e
    | .ok (a, b, c) =>
      match split3T2 sz rs with
      | .error e => .error e
      | .ok (as, bs, cs) => .ok (a :: as, b :: bs, c :: cs)

/-- Split the last dimension of a rank-3 tensor into three equal blocks. -/
def split3T3 (sz : Nat) : T3 → Except Err (T3 × T3 × T3)
  | [] => .ok ([], [], [])
  | m :: ms =>
    match split3T2 sz m with
    | .error e => .error e
    | .ok (a, b, c) =>
      match split3T3 sz ms with
      | .error e => .error e
      | .ok (as, bs, cs) => .ok (a :: as, b :: bs, c :: cs)

/-- `dir_ij[..., None]` (line 131). -/
def dirExpand (dir : T2) : T3 := dir.map (fun r => r.map (fun x => [x]))

/-- Lines 122-129 of `PaiNNInteraction.forward`: the interatomic context
network on `q`, the three gathers, the filter product `Wij * xj`, the
three-way split, and the grouped sum of `dq`.  Returns
`(dq0, dq, dmuR, dmumu, muj, mui)` where `dq0` holds the per-edge scalar
messages before aggregation and `dq` their grouped sum. -/
def stageA (p : InteractionP) (q mu Wij : T3) (idx_i idx_j : List Int)
    (n_atoms : Nat) : Except Err (T3 × T3 × T3 × T3 × T3 × T3) :=
  match p.d1.run3 q with
  | .error e => .error e
  | .ok x0 =>
    match p.d2.run3 x0 with
    | .error e => .error e
    | .ok x1 =>
      match gather x1 idx_j with
      | .error e => .error e
      | .ok xj =>
        match gather mu idx_j with
        | .error e => .error e
        | .ok muj =>
          match gather mu idx_i with
          | .error e => .error e
          | .ok mui =>
            match bmul3 Wij xj with
            | .error e => .error e
            | .ok x =>
              match split3T3 p.nAtomBasis x with
              | .error e => .error e
              | .ok (dq0, dmuR, dmumu) =>
                match scatterAdd dq0 idx_i n_atoms with
                | .error e => .error e
                | .ok dq => .ok (dq0, dq, dmuR, dmumu, muj, mui)

/-- `torch.transpose(mui)` on line 136: `torch.transpose` requires the two
dimension arguments `dim0, dim1`; calling it with none raises `TypeError`
before any tensor work happens. -/
def torchTransposeNoDims (_mui : T3) : Except Err T3 := .error .typeError

/-- Line 136, `self.compression_layer(torch.transpose(mui), 1, 2)`: the
argument expression raises first; and were a tensor produced, the module
call would still pass the two extra positional arguments `1, 2` to
`EquivariantCompressionLayer.forward`, which accepts only `vectors` —
another `TypeError`, raised before the layer body (and its `print`) runs. -/
def selfTermLine (_p : CompressionP) (mui : T3) : Except Err T3 × Nat :=
  match torchTransposeNoDims mui with
  | .error e => (.error e, 0)
  | .ok _ => (.error .typeError, 0)

/-- Lines 137-141 of `PaiNNInteraction.forward`, as written in the source:
`q = q + dq`, `mu = dmu + torch.transpose(compressed_vector_vi, 1, 2)`
(the prior `mu` is overwritten, not added), and
`dtm = self.reconstruction_layer(torch.transpose(mu, 1, 2))`. -/
def interactionTail (p : InteractionP) (q dq dmu cvi : T3) :
    Except Err (T3 × T3 × T4) :=
  match badd3 q dq with
  | .error e => .error e
  | .ok q' =>
    match badd3 dmu (transpose12 cvi) with
    | .error e => .error e
    | .ok mu' =>
      match reconForward p.recon (transpose12 mu') with
      | .error e => .error e
      | .ok dtm => .ok (q', mu', dtm)

/-- `PaiNNInteraction.forward` (lines 99-141).  The `Nat` component counts
executions of the compression layer's stray `print()`. -/
def interactionForward (p : InteractionP) (q mu Wij : T3) (dir_ij : T2)
    (idx_i idx_j : List Int) (n_atoms : Nat) :
    Except Err (T3 × T3 × T4) × Nat :=
  match stageA p q mu Wij idx_i idx_j n_atoms with
  | .error e => (.error e, 0)
  | .ok (_, dq, dmuR, dmumu, muj, mui) =>
    match compressionForward p.comp muj with
    | (.error e, k) => (.error e, k)
    | (.ok cvj, k) =>
      match bmul3 dmuR (dirExpand dir_ij) with
      | .error e => (.error e, k)
      | .ok t1 =>
        match bmul3 dmumu cvj with
        | .error e => (.error e, k)
        | .ok t2 =>
          match badd3 t1 t2 with
          | .error e => (.error e, k)
          | .ok dmu0 =>
            match scatterAdd dmu0 idx_i n_atoms with
            | .error e => (.error e, k)
            | .ok dmu =>
              match selfTermLine p.comp mui with
              | (.error e, k2) => (.error e, k + k2)
              | (.ok cvi, k2) => (interactionTail p q dq dmu cvi, k + k2)

/-! ### PaiNNMixing (painn.py lines 144-195) -/

/-- Learned parameters of a `PaiNNMixing` block: `n_atom_basis`, the two
`intraatomic_context_net` layers (`Dense(2F, F, activation)` then
`Dense(F, 3F, None)`), the bias-free `mu_channel_mix = Dense(F, 2F)`, and
the stability epsilon. -/
structure MixingP where
  nAtomBasis : Nat
  c1 : DenseM
  c2 : DenseM
  muMix : LinearM
  eps : ℝ

/-- `torch.split(·, sz, dim=-1)` of one width-`2*sz` row into two blocks. -/
def split2Row (sz : Nat) (r : T1) : Except Err (T1 × T1) :=
  if r.length = 2 * sz then .ok (r.take sz, r.drop sz) else .error .shape

def split2T2 (sz : Nat) : T2 → Except Err (T2 × T2)
  | [] => .ok ([], [])
  | r :: rs =>
    match split2Row sz r with
    | .error e => .error e
    | .ok (a, b) =>
      match split2T2 sz rs with
      | .error e => .error e
      | .ok (as, bs) => .ok (a :: as, b :: bs)

/-- Split the last dimension of a rank-3 tensor into two equal blocks. -/
def split2T3 (sz : Nat) : T3 → Except Err (T3 × T3)
  | [] => .ok ([], [])
  | m :: ms =>
    match split2T2 sz m with
    | .error e => .error e
    | .ok (a, b) =>
      match split2T3 sz ms with
      | .error e => .error e
      | .ok (as, bs) => .ok (a :: as, b :: bs)

/-- `torch.sqrt(torch.sum(mu_V**2, dim=-2, keepdim=True) + eps)`
(line 179). -/
def muVNorm (eps : ℝ) (muV : T3) : T3 :=
  muV.map (fun rows =>
    [(sumRows (rows.map (fun r => r.map (fun x => x ^ 2)))).map
        (fun s => Real.sqrt (s + eps))])

/-- Row-level contraction of `torch.einsum('bfij,bfj->bfi', ...)`:
`out[i] = Σ_j M[i][j] * v[j]`, `j` broadcasting when `v` has size 1. -/
def matVecB (m : T2) (v : T1) : Except Err T1 :=
  emap
    (fun row =>
      match bzipR (· * ·) row v with
      | .error e => .error e
      | .ok prods => .ok prods.sum)
    m

/-- `torch.einsum('bfij,bfj->bfi', dtm, q_T)` (line 192): the batch dims
must agree, the `f` dims agree or broadcast from 1. -/
def einsumTV (dtm : T4) (qT : T3) : Except Err T3 :=
  ezip (fun tens qb => bzipL matVecB tens qb) dtm qT

/-- `PaiNNMixing.forward` (lines 166-195). -/
def mixingForward (p : MixingP) (q mu : T3) (dtm : T4) : Except Err (T3 × T3) :=
  match p.muMix.run3 mu with
  | .error e => .error e
  | .ok muMixT =>
    match split2T3 p.nAtomBasis muMixT with
    | .error e => .error e
    | .ok (muV, muW) =>
      match catLast3 q (muVNorm p.eps muV) with
      | .error e => .error e
      | .ok ctx =>
        match p.c1.run3 ctx with
        | .error e => .error e
        | .ok y0 =>
          match p.c2.run3 y0 with
          | .error e => .error e
          | .ok y1 =>
            match split3T3 p.nAtomBasis y1 with
            | .error e => .error e
            | .ok (dqIntra, dmuIntra0, dqmuIntra0) =>
              match bmul3 dmuIntra0 muW with
              | .error e => .error e
              | .ok dmuIntra =>
                match bmul3 muV muW with
                | .error e => .error e
                | .ok prods =>
                  match bmul3 dqmuIntra0 (prods.map (fun rows => [sumRows rows])) with
                  | .error e => .error e
                  | .ok dqmuIntra =>
                    match catLast3 dqIntra dqmuIntra with
                    | .error e => .error e
                    | .ok dcat =>
                      match badd3 q dcat with
                      | .error e => .error e
                      | .ok q' =>
                        match einsumTV dtm (transpose12 q') with
                        | .error e => .error e
                        | .ok tv =>
                          match catLast3 dmuIntra (transpose12 tv) with
                          | .error e => .error e
                          | .ok mcat =>
                            match badd3 mu mcat with
                            | .error e => .error e
                            | .ok mu' => .ok (q', mu')

/-! ### PaiNN orchestrator (painn.py lines 198-334) -/

/-- Learned parameters and collaborators of a `PaiNN` module.  The
constructor (lines 209-283) is mirrored by how concrete instances are
assembled in the theorems: `n_atom_basis` is the constructor argument `A`,
the blocks are built with `self.n_atom_basis = A // 2`, the filter net maps
`n_rbf` features to `3A` (shared) or `n_interactions * 3A` (unshared)
features, and the embedding is `nn.Embedding(100, A)`.  The radial basis
and cutoff function are external collaborators (spec §6) and enter as
functions. -/
structure PaiNNP where
  nAtomBasisArg : Nat
  nInteractions : Nat
  embTable : T2
  elecEmb : List (T2 → T2)
  radialBasis : ℝ → T1
  cutoffFn : ℝ → ℝ
  filterNet : LinearM
  sharedFilters : Bool
  interactions : List InteractionP
  mixings : List MixingP

/-- `torch.split(filters, 3 * self.n_atom_basis, dim=-1)` (line 314):
chunks of the last dimension, the final chunk possibly narrower. -/
def chunkLast (sz : Nat) (t : T3) : List T3 :=
  let w := ((t.headD []).headD []).length
  if sz = 0 then [t]
  else
    (List.range ((w + sz - 1) / sz)).map
      (fun i => t.map (fun m => m.map (fun r => (r.drop (i * sz)).take sz)))

/-- The interaction/mixing rounds of `PaiNN.forward` (lines 325-327),
threading `q`, `mu` and accumulating `print` executions; `filter_list[i]`
is a Python list index, an `IndexError` when past the end. -/
def painnRounds (fl : List T3) (dir_ij : T2) (idx_i idx_j : List Int) (n : Nat) :
    List (InteractionP × MixingP) → Nat → T3 → T3 → Nat →
    Except Err (T3 × T3) × Nat
  | [], _, q, mu, acc => (.ok (q, mu), acc)
  | (ip, mp) :: rest, i, q, mu, acc =>
    if h : i < fl.length then
      match interactionForward ip q mu (fl.get ⟨i, h⟩) dir_ij idx_i idx_j n with
      | (.error e, k) => (.error e, acc + k)
      | (.ok (q2, mu2, t), k) =>
        match mixingForward mp q2 mu2 t with
        | .error e => (.error e, acc + k)
        | .ok (q3, mu3) => painnRounds fl dir_ij idx_i idx_j n rest (i + 1) q3 mu3 (acc + k)
    else (.error .index, acc)

/-- `PaiNN.forward` (lines 285-334) on the tensors the input dictionary
supplies (`Z`, `Rij`, `idx_i`, `idx_j`); returns the pair written back as
`scalar_representation` and `vector_representation`.  The trailing
`squeeze(1)` is modelled as flattening the singleton middle dimension. -/
def painnForward (P : PaiNNP) (Z : List Int) (r_ij : T2)
    (idx_i idx_j : List Int) : Except Err (T2 × T3) × Nat :=
  let n_atoms := Z.length
  let d_ij : T2 := r_ij.map (fun v => [norm1 v])
  match bzipL (bzipR (· / ·)) r_ij d_ij with
  | .error e => (.error e, 0)
  | .ok dir_ij =>
    match P.filterNet.run3 (d_ij.map (fun row => row.map P.radialBasis)) with
    | .error e => (.error e, 0)
    | .ok fil0 =>
      match bmul3 fil0 (d_ij.map (fun row => row.map (fun x => [P.cutoffFn x]))) with
      | .error e => (.error e, 0)
      | .ok filters =>
        let fl :=
          if P.sharedFilters then List.replicate P.nInteractions filters
          else chunkLast (3 * (P.nAtomBasisArg / 2)) filters
        match gather P.embTable Z with
        | .error e => (.error e, 0)
        | .ok q0 =>
          let q1 := P.elecEmb.foldl (fun acc f => zadd2 acc (f acc)) q0
          let q2 : T3 := q1.map (fun r => [r])
          let w2 := ((q2.headD []).headD []).length * 2
          let mu0 : T3 := q2.map (fun _ => List.replicate 3 (List.replicate w2 (0 : ℝ)))
          match painnRounds fl dir_ij idx_i idx_j n_atoms
              (P.interactions.zip P.mixings) 0 q2 mu0 0 with
          | (.error e, k) => (.error e, k)
          | (.ok (qf, muf), k) => (.ok (qf.map List.flatten, muf), k)

/-! ### Shape predicates -/

/-- A rank-2 tensor of shape `[a, b]`. -/
def Rect2 (t : T2) (a b : Nat) : Prop := t.length = a ∧ ∀ r ∈ t, r.length = b

/-- A rank-3 tensor of shape `[a, b, c]`. -/
def Rect3 (t : T3) (a b c : Nat) : Prop :=
  t.length = a ∧ ∀ m ∈ t, m.length = b ∧ ∀ r ∈ m, r.length = c

instance (t : T2) (a b : Nat) : Decidable (Rect2 t a b) := by
  unfold Rect2; infer_instance

instance (t : T3) (a b c : Nat) : Decidable (Rect3 t a b c) := by
  unfold Rect3; infer_instance

/-! ### Lemmas about the fallible combinators -/

theorem emap_ok_of {α β : Type} {f : α → Except Err β} {g : α → β} :
    ∀ {l : List α}, (∀ x ∈ l, f x = .ok (g x)) → emap f l = .ok (l.map g) := by
  intro l
  induction l with
  | nil => intro _; rfl
  | cons a t ih =>
    intro h
    have ha := h a (by simp)
    have ht := ih (fun x hx => h x (by simp [hx]))
    simp [emap, ha, ht]

theorem emap_general {α β : Type} {f : α → Except Err β} {P : β → Prop} :
    ∀ {l : List α}, (∀ x ∈ l, ∃ y, f x = .ok y ∧ P y) →
      ∃ out, emap f l = .ok out ∧ out.length = l.length ∧ ∀ y ∈ out, P y := by
  intro l
  induction l with
  | nil => intro _; exact ⟨[], rfl, rfl, by simp⟩
  | cons a t ih =>
    intro h
    obtain ⟨y, hy, hPy⟩ := h a (by simp)
    obtain ⟨out, hout, hlen, hP⟩ := ih (fun x hx => h x (by simp [hx]))
    refine ⟨y :: out, ?_, by simp [hlen], ?_⟩
    · simp [emap, hy, hout]
    · intro z hz
      rcases List.mem_cons.mp hz with h1 | h2
      · exact h1 ▸ hPy
      · exact hP z h2

theorem emap_ok_length {α β : Type} {f : α → Except Err β} :
    ∀ {l : List α} {out : List β}, emap f l = .ok out → out.length = l.length := by
  intro l
  induction l with
  | nil => intro out h; cases h; rfl
  | cons a t ih =>
    intro out h
    simp only [emap] at h
    cases ha : f a with
    | error e => rw [ha] at h; exact absurd h (by simp)
    | ok b =>
      rw [ha] at h
      cases ht : emap f t with
      | error e => rw [ht] at h; exact absurd h (by simp)
      | ok bs =>
        rw [ht] at h
        cases h
        simp [ih ht]

theorem emap_mem_of_ok {α β : Type} {f : α → Except Err β} :
    ∀ {l : List α} {out : List β}, emap f l = .ok out →
      ∀ y ∈ out, ∃ x ∈ l, f x = .ok y := by
  intro l
  induction l with
  | nil => intro out h; cases h; intro y hy; exact absurd hy (by simp)
  | cons a t ih =>
    intro out h
    simp only [emap] at h
    cases ha : f a with
    | error e => rw [ha] at h; exact absurd h (by simp)
    | ok b =>
      rw [ha] at h
      cases ht : emap f t with
      | error e => rw [ht] at h; exact absurd h (by simp)
      | ok bs =>
        rw [ht] at h
        cases h
        intro y hy
        rcases List.mem_cons.mp hy with h1 | h2
        · exact ⟨a, by simp, h1 ▸ ha⟩
        · obtain ⟨x, hx, hfx⟩ := ih ht y h2
          exact ⟨x, by simp [hx], hfx⟩

theorem ezip_ok_of {α β γ : Type} {g : α → β → Except Err γ} {k : α → β → γ} :
    ∀ {xs : List α} {ys : List β}, xs.length = ys.length →
      (∀ p ∈ xs.zip ys, g p.1 p.2 = .ok (k p.1 p.2)) →
      ezip g xs ys = .ok (List.zipWith k xs ys) := by
  intro xs
  induction xs with
  | nil =>
    intro ys h _
    cases ys with
    | nil => rfl
    | cons b bs => simp at h
  | cons a t ih =>
    intro ys h hp
    cases ys with
    | nil => simp at h
    | cons b bs =>
      have ha := hp (a, b) (by simp)
      have ht := ih (by simpa using h) (fun p hpmem => hp p (by simp [hpmem]))
      simp [ezip, ha, ht]

theorem ezip_general {α β γ : Type} {g : α → β → Except Err γ} {P : γ → Prop} :
    ∀ {xs : List α} {ys : List β}, xs.length = ys.length →
      (∀ p ∈ xs.zip ys, ∃ z, g p.1 p.2 = .ok z ∧ P z) →
      ∃ out, ezip g xs ys = .ok out ∧ out.length = xs.length ∧ ∀ z ∈ out, P z := by
  intro xs
  induction xs with
  | nil =>
    intro ys h _
    cases ys with
    | nil => exact ⟨[], rfl, rfl, by simp⟩
    | cons b bs => simp at h
  | cons a t ih =>
    intro ys h hp
    cases ys with
    | nil => simp at h
    | cons b bs =>
      obtain ⟨z, hz, hPz⟩ := hp (a, b) (by simp)
      obtain ⟨out, hout, hlen, hP⟩ :=
        ih (by simpa using h) (fun p hpmem => hp p (by simp [hpmem]))
      refine ⟨z :: out, ?_, by simp [hlen], ?_⟩
      · simp [ezip, hz, hout]
      · intro w hw
        rcases List.mem_cons.mp hw with h1 | h2
        · exact h1 ▸ hPz
        · exact hP w h2

theorem bzipL_eq_ezip {α β γ : Type} {g : α → β → Except Err γ} {xs : List α}
    {ys : List β} (h : xs.length = ys.length) : bzipL g xs ys = ezip g xs ys := by
  simp [bzipL, h]

theorem bzipR_eq_zipWith {f : ℝ → ℝ → ℝ} {xs ys : T1} (h : xs.length = ys.length) :
    bzipR f xs ys = .ok (List.zipWith f xs ys) := by
  simp [bzipR, h]

theorem bzipR_general {f : ℝ → ℝ → ℝ} {xs ys : T1} {c c' : Nat}
    (hx : xs.length = c) (hy : ys.length = c')
    (hc : c = c' ∨ c = 1 ∨ c' = 1) (hc0 : 0 < c) (hc0' : 0 < c') :
    ∃ z, bzipR f xs ys = .ok z ∧ z.length = max c c' := by
  by_cases hlen : xs.length = ys.length
  · have hcc : c = c' := by omega
    refine ⟨List.zipWith f xs ys, bzipR_eq_zipWith hlen, ?_⟩
    simp [hx, hy]
    omega
  · have hcase : c = 1 ∨ c' = 1 := by
      rcases hc with h | h | h
      · exact absurd (hx.trans (h.symm ▸ hy.symm)) hlen
      · exact Or.inl h
      · exact Or.inr h
    rcases hcase with h | h
    · obtain ⟨x, hxs⟩ := List.length_eq_one.mp (hx.trans h)
      subst hxs
      refine ⟨ys.map (fun b => f x b), ?_, by simp [hy]; omega⟩
      simp only [bzipR, if_neg hlen]
    · obtain ⟨y, hys⟩ := List.length_eq_one.mp (hy.trans h)
      subst hys
      refine ⟨xs.map (fun a => f a y), ?_, by simp [hx]; omega⟩
      simp only [bzipR, if_neg hlen]
      cases xs with
      | nil => simp at hx; omega
      | cons a t =>
        cases t with
        | nil => simp at hlen
        | cons b u => rfl

theorem bzipL_general {α β γ : Type} {g : α → β → Except Err γ} {P : γ → Prop}
    {xs : List α} {ys : List β} {m m' : Nat}
    (hx : xs.length = m) (hy : ys.length = m')
    (hm : m = m' ∨ m = 1 ∨ m' = 1) (hm0 : 0 < m) (hm0' : 0 < m')
    (hgood : ∀ a ∈ xs, ∀ b ∈ ys, ∃ z, g a b = .ok z ∧ P z) :
    ∃ out, bzipL g xs ys = .ok out ∧ out.length = max m m' ∧ ∀ z ∈ out, P z := by
  by_cases hlen : xs.length = ys.length
  · have hmm : m = m' := by omega
    obtain ⟨out, hout, hl, hP⟩ :=
      ezip_general (g := g) (P := P) hlen
        (fun p hp => hgood p.1 (List.of_mem_zip hp).1 p.2 (List.of_mem_zip hp).2)
    exact ⟨out, (bzipL_eq_ezip hlen).trans hout, by simp [hl, hx]; omega, hP⟩
  · have hcase : m = 1 ∨ m' = 1 := by
      rcases hm with h | h | h
      · exact absurd (hx.trans (h.symm ▸ hy.symm)) hlen
      · exact Or.inl h
      · exact Or.inr h
    rcases hcase with h | h
    · obtain ⟨x, hxs⟩ := List.length_eq_one.mp (hx.trans h)
      subst hxs
      obtain ⟨out, hout, hl, hP⟩ :=
        emap_general (f := fun b => g x b) (P := P)
          (fun b hb => hgood x (by simp) b hb)
      refine ⟨out, ?_, by simp [hl, hy]; omega, hP⟩
      simp only [bzipL, if_neg hlen]
      exact hout
    · obtain ⟨y, hys⟩ := List.length_eq_one.mp (hy.trans h)
      subst hys
      obtain ⟨out, hout, hl, hP⟩ :=
        emap_general (f := fun a => g a y) (P := P)
          (fun a ha => hgood a ha y (by simp))
      refine ⟨out, ?_, by simp [hl, hx]; omega, hP⟩
      simp only [bzipL, if_neg hlen]
      cases xs with
      | nil => simp at hx; omega
      | cons a t =>
        cases t with
        | nil => simp at hlen
        | cons b u => exact hout

/-! ### Linear layers and softmax -/

theorem LinearM.run_ok {m : LinearM} {x : T1} (h : x.length = m.inF) :
    m.run x = .ok (List.zipWith (fun row b => dot row x + b) m.weight m.bias) := by
  simp [LinearM.run, h]

theorem LinearM.run_length {m : LinearM} {x out : T1}
    (hb : m.bias.length = m.weight.length) (h : m.run x = .ok out) :
    out.length = m.weight.length := by
  unfold LinearM.run at h
  by_cases hc : x.length = m.inF
  · rw [if_pos hc] at h
    cases h
    simp [hb]
  · rw [if_neg hc] at h
    exact absurd h (by simp)

theorem softmax_length (xs : T1) : (softmax xs).length = xs.length := by
  simp [softmax]

theorem expSum_pos {xs : T1} (h : xs ≠ []) : 0 < (xs.map Real.exp).sum := by
  refine List.sum_pos _ ?_ (by simpa using h)
  intro x hx
  obtain ⟨a, _, rfl⟩ := List.mem_map.mp hx
  exact Real.exp_pos a

theorem softmax_nonneg {xs : T1} : ∀ x ∈ softmax xs, 0 ≤ x := by
  intro x hx
  have hne : xs ≠ [] := by
    intro hnil
    subst hnil
    simp [softmax] at hx
  obtain ⟨a, _, rfl⟩ := List.mem_map.mp hx
  exact le_of_lt (div_pos (Real.exp_pos a) (expSum_pos hne))

theorem softmax_sum {xs : T1} (h : xs ≠ []) : (softmax xs).sum = 1 := by
  unfold softmax
  have hS := expSum_pos h
  calc (xs.map fun x => Real.exp x / (xs.map Real.exp).sum).sum
      = (xs.map fun x => Real.exp x * ((xs.map Real.exp).sum)⁻¹).sum := by
        simp [div_eq_mul_inv]
    _ = (xs.map Real.exp).sum * ((xs.map Real.exp).sum)⁻¹ :=
        List.sum_map_mul_right xs Real.exp _
    _ = 1 := mul_inv_cancel₀ (ne_of_gt hS)

theorem emap_general' {α β : Type} {f : α → Except Err β} {P : β → Prop}
    {l : List α} (h : ∀ x ∈ l, ∃ y, f x = .ok y ∧ P y) :
    ∃ out, emap f l = .ok out ∧ ∀ y ∈ out, P y := by
  obtain ⟨out, h1, _, h3⟩ := emap_general h
  exact ⟨out, h1, h3⟩

/-! ### Entry access helpers and pointwise lemmas -/

/-- Entry of a row, defaulting to 0 out of range. -/
def at1 (r : T1) (i : Nat) : ℝ := r.getD i 0

/-- Entry of a matrix. -/
def at2 (m : T2) (i j : Nat) : ℝ := at1 (m.getD i []) j

/-- Innermost row of a rank-3 tensor. -/
def row3 (t : T3) (a b : Nat) : T1 := (t.getD a []).getD b []

/-- Entry of a rank-3 tensor. -/
def at3 (t : T3) (a b c : Nat) : ℝ := at1 (row3 t a b) c

theorem getD_map_lt {α β : Type} (f : α → β) {l : List α} {i : Nat}
    (h : i < l.length) (d : α) (d' : β) : (l.map f).getD i d' = f (l.getD i d) := by
  induction l generalizing i with
  | nil => simp at h
  | cons a t ih =>
    cases i with
    | zero => simp
    | succ j => simpa using ih (by simpa using h)

theorem getD_zipWith_lt {α β γ : Type} (f : α → β → γ) {xs : List α} {ys : List β}
    {i : Nat} (hx : i < xs.length) (hy : i < ys.length) (da : α) (db : β) (dc : γ) :
    (List.zipWith f xs ys).getD i dc = f (xs.getD i da) (ys.getD i db) := by
  induction xs generalizing ys i with
  | nil => simp at hx
  | cons a t ih =>
    cases ys with
    | nil => simp at hy
    | cons b u =>
      cases i with
      | zero => simp
      | succ j => simpa using ih (by simpa using hx) (by simpa using hy)

theorem getD_mem_lt {α : Type} {l : List α} {i : Nat} (h : i < l.length) (d : α) :
    l.getD i d ∈ l := by
  induction l generalizing i with
  | nil => simp at h
  | cons a t ih =>
    cases i with
    | zero => simp
    | succ j => exact List.mem_cons_of_mem a (ih (by simpa using h))

theorem sumRows_length {chs : T2} {c : Nat} (hne : chs ≠ [])
    (h : ∀ r ∈ chs, r.length = c) : (sumRows chs).length = c := by
  induction chs with
  | nil => exact absurd rfl hne
  | cons r rs ih =>
    cases rs with
    | nil => simpa using h r (by simp)
    | cons s u =>
      have hr := h r (by simp)
      have hrec := ih (by simp) (fun x hx => h x (by simp [hx]))
      simp only [sumRows, zadd1]
      simp [hr, hrec]

theorem zadd1_map_mul (w : ℝ) : ∀ (a b : T1),
    zadd1 (a.map (fun x => x * w)) (b.map (fun x => x * w)) =
      (zadd1 a b).map (fun x => x * w) := by
  intro a
  induction a with
  | nil => intro b; simp [zadd1]
  | cons x t ih =>
    intro b
    cases b with
    | nil => simp [zadd1]
    | cons y u =>
      simp only [List.map_cons, zadd1, List.zipWith_cons_cons]
      rw [← add_mul]
      have := ih u
      simp only [zadd1] at this
      simp [this]

theorem sumRows_map_mul (w : ℝ) : ∀ (chs : T2),
    sumRows (chs.map (fun ch => ch.map (fun x => x * w))) =
      (sumRows chs).map (fun x => x * w) := by
  intro chs
  induction chs with
  | nil => simp [sumRows]
  | cons r rs ih =>
    cases rs with
    | nil => simp [sumRows]
    | cons s u =>
      simp only [List.map_cons, sumRows]
      rw [show (s.map (fun x => x * w) :: u.map (fun ch => ch.map (fun x => x * w))) =
            ((s :: u).map (fun ch => ch.map (fun x => x * w))) by simp]
      rw [ih, zadd1_map_mul]

theorem mem_zipWith_exists {α β γ : Type} {f : α → β → γ} :
    ∀ {xs : List α} {ys : List β} {z : γ}, z ∈ List.zipWith f xs ys →
      ∃ a ∈ xs, ∃ b ∈ ys, z = f a b := by
  intro xs
  induction xs with
  | nil => intro ys z hz; simp at hz
  | cons a t ih =>
    intro ys z hz
    cases ys with
    | nil => simp at hz
    | cons b u =>
      simp only [List.zipWith_cons_cons, List.mem_cons] at hz
      rcases hz with h | h
      · exact ⟨a, by simp, b, by simp, h⟩
      · obtain ⟨a', ha', b', hb', hz'⟩ := ih h
        exact ⟨a', by simp [ha'], b', by simp [hb'], hz'⟩


/-! ### Matrix entry lemmas -/

/-- Matrix slice of a rank-4 tensor. -/
def mat4 (t : T4) (a b : Nat) : T2 := (t.getD a []).getD b []

/-- A rank-4 tensor of shape `[a, b, c, d]`. -/
def Rect4 (t : T4) (a b c d : Nat) : Prop := t.length = a ∧ ∀ x ∈ t, Rect3 x b c d

instance (t : T4) (a b c d : Nat) : Decidable (Rect4 t a b c d) := by
  unfold Rect4; infer_instance

theorem at1_replicate_zero (n i : Nat) : at1 (List.replicate n (0 : ℝ)) i = 0 := by
  unfold at1
  by_cases h : i < n
  · rw [List.getD_eq_getElem _ _ (by simpa using h)]
    simp
  · rw [List.getD_eq_default]
    simpa using h

theorem at1_oob {r : T1} {i : Nat} (h : r.length ≤ i) : at1 r i = 0 := by
  unfold at1
  rw [List.getD_eq_default _ _ h]

theorem at2_oob {m : T2} {i : Nat} (h : m.length ≤ i) (j : Nat) : at2 m i j = 0 := by
  unfold at2 at1
  rw [List.getD_eq_default _ _ h]
  simp

theorem at2_outerSelf (v : T1) (i j : Nat) : at2 (outerSelf v) i j = at1 v i * at1 v j := by
  by_cases hi : i < v.length
  · by_cases hj : j < v.length
    · unfold at2 at1 outerSelf
      rw [getD_map_lt _ hi (0 : ℝ), getD_map_lt _ hj (0 : ℝ)]
    · rw [show at1 v j = 0 from at1_oob (le_of_not_lt hj), mul_zero]
      unfold at2 at1 outerSelf
      rw [getD_map_lt _ hi (0 : ℝ)]
      rw [List.getD_eq_default _ _ (by simpa using le_of_not_lt hj)]
  · rw [show at1 v i = 0 from at1_oob (le_of_not_lt hi), zero_mul]
    exact at2_oob (by simpa [outerSelf] using le_of_not_lt hi) j

theorem at2_scaleMat (w : ℝ) (m : T2) (i j : Nat) :
    at2 (scaleMat w m) i j = w * at2 m i j := by
  by_cases hi : i < m.length
  · by_cases hj : j < (m.getD i []).length
    · unfold at2 at1 scaleMat
      rw [getD_map_lt _ hi [], getD_map_lt _ hj (0 : ℝ)]
    · have hr : at2 m i j = 0 := by
        unfold at2
        exact at1_oob (le_of_not_lt hj)
      rw [hr, mul_zero]
      unfold at2 at1 scaleMat
      rw [getD_map_lt _ hi []]
      rw [List.getD_eq_default _ _ (by simpa using le_of_not_lt hj)]
  · rw [at2_oob (le_of_not_lt hi) j, mul_zero]
    exact at2_oob (by simpa [scaleMat] using le_of_not_lt hi) j

theorem outerSelf_rect {v : T1} (h : v.length = 3) : Rect2 (outerSelf v) 3 3 := by
  constructor
  · simp [outerSelf, h]
  · intro r hr
    obtain ⟨a, _, rfl⟩ := List.mem_map.mp hr
    simp [h]

theorem scaleMat_rect {m : T2} {a b : Nat} (h : Rect2 m a b) (w : ℝ) :
    Rect2 (scaleMat w m) a b := by
  obtain ⟨h1, h2⟩ := h
  constructor
  · simp [scaleMat, h1]
  · intro r hr
    obtain ⟨s, hs, rfl⟩ := List.mem_map.mp hr
    simp [h2 s hs]

theorem zadd2_rect {x y : T2} {a b : Nat} (hx : Rect2 x a b) (hy : Rect2 y a b) :
    Rect2 (zadd2 x y) a b := by
  obtain ⟨hx1, hx2⟩ := hx
  obtain ⟨hy1, hy2⟩ := hy
  constructor
  · simp [zadd2, hx1, hy1]
  · intro r hr
    obtain ⟨u, hu, v, hv, rfl⟩ := mem_zipWith_exists hr
    simp [zadd1, hx2 u hu, hy2 v hv]

theorem at2_zadd2 {x y : T2} {a b : Nat} (hx : Rect2 x a b) (hy : Rect2 y a b)
    {i j : Nat} (hi : i < a) (hj : j < b) :
    at2 (zadd2 x y) i j = at2 x i j + at2 y i j := by
  obtain ⟨hx1, hx2⟩ := hx
  obtain ⟨hy1, hy2⟩ := hy
  have hxi : i < x.length := by omega
  have hyi : i < y.length := by omega
  have hxr : (x.getD i []).length = b := hx2 _ (getD_mem_lt hxi [])
  have hyr : (y.getD i []).length = b := hy2 _ (getD_mem_lt hyi [])
  unfold at2 zadd2 at1
  rw [getD_zipWith_lt _ hxi hyi [] []]
  unfold zadd1
  rw [getD_zipWith_lt _ (by omega) (by omega) (0 : ℝ) (0 : ℝ)]

theorem sumMats_rect : ∀ {L : List T2}, L ≠ [] → (∀ M ∈ L, Rect2 M 3 3) →
    Rect2 (sumMats L) 3 3 := by
  intro L
  induction L with
  | nil => intro h _; exact absurd rfl h
  | cons m ms ih =>
    intro _ hall
    cases ms with
    | nil => simpa [sumMats] using hall m (by simp)
    | cons m2 mt =>
      have hrec := ih (by simp) (fun M hM => hall M (by simp [List.mem_cons] at hM ⊢; tauto))
      simp only [sumMats]
      exact zadd2_rect (hall m (by simp)) hrec

theorem at2_sumMats : ∀ {L : List T2}, L ≠ [] → (∀ M ∈ L, Rect2 M 3 3) →
    ∀ {i j : Nat}, i < 3 → j < 3 →
      at2 (sumMats L) i j = (L.map (fun M => at2 M i j)).sum := by
  intro L
  induction L with
  | nil => intro h; exact absurd rfl h
  | cons m ms ih =>
    intro _ hall i j hi hj
    cases ms with
    | nil => simp [sumMats]
    | cons m2 mt =>
      have hrecRect := sumMats_rect (L := m2 :: mt) (by simp)
        (fun M hM => hall M (by simp [List.mem_cons] at hM ⊢; tauto))
      have hrec := ih (by simp) (fun M hM => hall M (by simp [List.mem_cons] at hM ⊢; tauto))
        hi hj
      simp only [sumMats] at *
      rw [at2_zadd2 (hall m (by simp)) hrecRect hi hj, hrec]
      simp

/-! ### Claim C5 -/

/-- C5: for every input to `EquivariantCompressionLayer.forward` (with the
layer's architectural widths: the input channel count matching the first
linear layer, matching hidden widths, at least one compressed channel), the
per-(batch, output-channel) weight vector produced from the channel norms
is non-negative in every entry and sums to 1 across the compressed
channels — it is the output of a softmax. -/
theorem compressionNet_ok (p : CompressionP) (nb : T1) (h : nb.length = p.l1.inF)
    (hb1 : p.l1.bias.length = p.l1.weight.length)
    (hmid : p.l2.inF = p.l1.weight.length)
    (hb2 : p.l2.bias.length = p.l2.weight.length) :
    ∃ h2s, compressionNet p nb = .ok (softmax h2s) ∧ h2s.length = p.l2.weight.length := by
  unfold compressionNet
  rw [LinearM.run_ok h]
  dsimp only
  have hlen2 :
      ((List.zipWith (fun row b => dot row nb + b) p.l1.weight p.l1.bias).map
          relu).length = p.l2.inF := by
    simp [hmid, hb1]
  rw [LinearM.run_ok hlen2]
  refine ⟨_, rfl, ?_⟩
  simp [hb2]

theorem compression_weights_prob_dist (p : CompressionP) (vectors : T3)
    (hin : ∀ chs ∈ vectors, chs.length = p.l1.inF)
    (hb1 : p.l1.bias.length = p.l1.weight.length)
    (hmid : p.l2.inF = p.l1.weight.length)
    (hb2 : p.l2.bias.length = p.l2.weight.length)
    (hC : 0 < p.l2.weight.length) :
    ∃ w, compressionWeights p vectors = .ok w ∧
      ∀ row ∈ w, (∀ x ∈ row, 0 ≤ x) ∧ row.sum = 1 := by
  unfold compressionWeights
  refine emap_general' ?_
  intro nb hnb
  obtain ⟨chs, hchs, rfl⟩ := List.mem_map.mp hnb
  obtain ⟨h2s, hok, hlen⟩ := compressionNet_ok p (chs.map norm1) (by simp [hin chs hchs]) hb1 hmid hb2
  refine ⟨_, hok, softmax_nonneg, softmax_sum ?_⟩
  intro hnil
  rw [hnil] at hlen
  simp at hlen
  omega

/-- Concrete compression-layer parameters for the C5 witness: the source's
architecture with `num_vector_channels = 2`, hidden width 32,
`compressed_channels = 1`, all weights zero. -/
def c5p : CompressionP :=
  ⟨⟨2, List.replicate 32 [0, 0], List.replicate 32 0⟩,
   ⟨32, [List.replicate 32 0], [0]⟩⟩

/-- A concrete `[1, 2, 3]` input for the C5 witness. -/
def c5v : T3 := [[[0, 1, 2], [2, 0, 1]]]

/-- Success and shape of the compression layer's weight network. -/
theorem compressionWeights_ok (p : CompressionP) (vectors : T3)
    (hin : ∀ chs ∈ vectors, chs.length = p.l1.inF)
    (hb1 : p.l1.bias.length = p.l1.weight.length)
    (hmid : p.l2.inF = p.l1.weight.length)
    (hb2 : p.l2.bias.length = p.l2.weight.length) :
    ∃ w, compressionWeights p vectors = .ok w ∧ w.length = vectors.length ∧
      ∀ row ∈ w, row.length = p.l2.weight.length := by
  have hgood : ∀ nb ∈ chanNorms vectors,
      ∃ y, compressionNet p nb = .ok y ∧ y.length = p.l2.weight.length := by
    intro nb hnb
    obtain ⟨chs, hchs, rfl⟩ := List.mem_map.mp hnb
    obtain ⟨h2s, hok, hlen⟩ := compressionNet_ok p (chs.map norm1) (by simp [hin chs hchs]) hb1 hmid hb2
    refine ⟨_, hok, ?_⟩
    simp [softmax_length, hlen]
  obtain ⟨w, h1, h2, h3⟩ := emap_general hgood
  exact ⟨w, h1, by simpa [chanNorms] using h2, h3⟩

/-! ### Claim C6 -/

/-- C6: for every input of shape `[B, V, 3]` (with the layer's architectural
widths), `EquivariantCompressionLayer.forward` returns a tensor of shape
`[B, C, 3]` whose compressed channel `l` equals `weight[b, l]` times the sum
over all `V` input vectors: the same scalar weight, indexed only by
`(batch, output-channel)`, multiplies every input channel uniformly. -/
theorem compression_uniform_weighted_sum (p : CompressionP) (vectors : T3) (B V : Nat)
    (hrect : Rect3 vectors B V 3) (hV : 0 < V)
    (hin : p.l1.inF = V)
    (hb1 : p.l1.bias.length = p.l1.weight.length)
    (hmid : p.l2.inF = p.l1.weight.length)
    (hb2 : p.l2.bias.length = p.l2.weight.length) :
    ∃ w out, compressionWeights p vectors = .ok w ∧
      compressionForward p vectors = (.ok out, 1) ∧
      Rect3 out B p.l2.weight.length 3 ∧
      ∀ b < B, ∀ l < p.l2.weight.length,
        row3 out b l = (sumRows (vectors.getD b [])).map (fun x => at2 w b l * x) := by
  obtain ⟨hB, hrows⟩ := hrect
  obtain ⟨w, hw, hwlen, hwrow⟩ :=
    compressionWeights_ok p vectors (fun chs hchs => (hrows chs hchs).1.trans hin.symm)
      hb1 hmid hb2
  have hzlen : vectors.length = w.length := hwlen.symm
  have heins :
      einsumBvcBl vectors w =
        .ok (List.zipWith
          (fun chs wrow =>
            wrow.map (fun wv => sumRows (chs.map (fun ch => ch.map (fun x => x * wv)))))
          vectors w) :=
    ezip_ok_of hzlen (fun _ _ => rfl)
  refine ⟨w,
    List.zipWith
      (fun chs wrow =>
        wrow.map (fun wv => sumRows (chs.map (fun ch => ch.map (fun x => x * wv)))))
      vectors w,
    hw, ?_, ?_, ?_⟩
  · unfold compressionForward
    rw [hw]
    dsimp only
    rw [heins]
  · refine ⟨by simp [hwlen, hB], ?_⟩
    intro m hm
    obtain ⟨chs, hchs, wrow, hwr, rfl⟩ := mem_zipWith_exists hm
    constructor
    · simp only [List.length_map]
      exact hwrow wrow hwr
    · intro r hr
      obtain ⟨wv, _, rfl⟩ := List.mem_map.mp hr
      refine sumRows_length ?_ ?_
      · intro hnil
        have hlv : chs.length = V := (hrows chs hchs).1
        rw [List.map_eq_nil_iff] at hnil
        rw [hnil] at hlv
        simp at hlv
        omega
      · intro rr hrr
        obtain ⟨ch, hch, rfl⟩ := List.mem_map.mp hrr
        simp [(hrows chs hchs).2 ch hch]
  · intro b hb l hl
    have hbv : b < vectors.length := by omega
    have hbw : b < w.length := by omega
    have hrowl : (w.getD b []).length = p.l2.weight.length :=
      hwrow _ (getD_mem_lt hbw [])
    unfold row3
    rw [getD_zipWith_lt _ hbv hbw [] []]
    rw [getD_map_lt _ (by omega) (0 : ℝ)]
    rw [sumRows_map_mul]
    have hat : at2 w b l = (w.getD b []).getD l 0 := rfl
    rw [hat]
    simp [mul_comm]

/-- Concrete parameters for the C6 witness (architecture of the source with
`num_vector_channels = 2`, hidden 32, `compressed_channels = 1`). -/
def c6p : CompressionP :=
  ⟨⟨2, List.replicate 32 [0, 0], List.replicate 32 0⟩,
   ⟨32, [List.replicate 32 0], [0]⟩⟩

/-- A concrete `[1, 2, 3]` input for the C6 witness. -/
def c6v : T3 := [[[1, 2, 3], [4, 5, 6]]]

theorem compression_uniform_weighted_sum_witness :
    (Rect3 c6v 1 2 3 ∧ 0 < 2 ∧ c6p.l1.inF = 2
      ∧ c6p.l1.bias.length = c6p.l1.weight.length
      ∧ c6p.l2.inF = c6p.l1.weight.length
      ∧ c6p.l2.bias.length = c6p.l2.weight.length)
    ∧ ∃ w out, compressionWeights c6p c6v = .ok w ∧
        compressionForward c6p c6v = (.ok out, 1) ∧
        Rect3 out 1 c6p.l2.weight.length 3 ∧
        ∀ b < 1, ∀ l < c6p.l2.weight.length,
          row3 out b l = (sumRows (c6v.getD b [])).map (fun x => at2 w b l * x) :=
  ⟨⟨by decide, by decide, by decide, by decide, by decide, by decide⟩,
   compression_uniform_weighted_sum c6p c6v 1 2 (by decide) (by decide) (by decide)
     (by decide) (by decide) (by decide)⟩

theorem compression_weights_prob_dist_witness :
    ((∀ chs ∈ c5v, chs.length = c5p.l1.inF)
      ∧ c5p.l1.bias.length = c5p.l1.weight.length
      ∧ c5p.l2.inF = c5p.l1.weight.length
      ∧ c5p.l2.bias.length = c5p.l2.weight.length
      ∧ 0 < c5p.l2.weight.length)
    ∧ ∃ w, compressionWeights c5p c5v = .ok w ∧
        ∀ row ∈ w, (∀ x ∈ row, 0 ≤ x) ∧ row.sum = 1 :=
  ⟨⟨by decide, by decide, by decide, by decide, by decide⟩,
   compression_weights_prob_dist c5p c5v (by decide) (by decide) (by decide)
     (by decide) (by decide)⟩

/-! ### Claim C7 -/

theorem zipWith_eq_range_map {α β γ : Type} (f : α → β → γ) {xs : List α}
    {ys : List β} {n : Nat} (hx : xs.length = n) (hy : ys.length = n)
    (dx : α) (dy : β) :
    List.zipWith f xs ys =
      (List.range n).map (fun k => f (xs.getD k dx) (ys.getD k dy)) := by
  apply List.ext_getElem
  · simp [hx, hy]
  · intro k h1 h2
    have hkx : k < xs.length := by simp [hx, hy] at h1; omega
    have hky : k < ys.length := by simp [hx, hy] at h1; omega
    simp only [List.getElem_zipWith, List.getElem_map, List.getElem_range]
    rw [List.getD_eq_getElem xs dx hkx, List.getD_eq_getElem ys dy hky]

/-- Success and shape of `fc_scalars` followed by the reshape. -/
theorem reconCoeff_ok (p : ReconP) (cv : T3) (B C : Nat)
    (hrect : Rect3 cv B C 3)
    (hin : p.l1.inF = C)
    (hb1 : p.l1.bias.length = p.l1.weight.length)
    (hmid : p.l2.inF = p.l1.weight.length)
    (hb2 : p.l2.bias.length = p.l2.weight.length)
    (hRC : p.l2.weight.length = p.reconstructedChannels * p.compressedChannels) :
    ∃ coeff, reconCoeff p cv = .ok coeff ∧ coeff.length = B ∧
      ∀ cb ∈ coeff, cb.length = p.reconstructedChannels ∧
        ∀ row ∈ cb, row.length = p.compressedChannels := by
  obtain ⟨hB, hrows⟩ := hrect
  have hgood : ∀ nb ∈ chanNorms cv,
      ∃ y, reconNet p nb = .ok y ∧ y.length = p.reconstructedChannels ∧
        ∀ row ∈ y, row.length = p.compressedChannels := by
    intro nb hnb
    obtain ⟨chs, hchs, rfl⟩ := List.mem_map.mp hnb
    unfold reconNet
    rw [LinearM.run_ok (by simp [(hrows chs hchs).1, hin])]
    dsimp only
    rw [LinearM.run_ok (by simp [hmid, hb1])]
    dsimp only
    unfold viewRC
    rw [if_pos (by simp [hb2, hRC])]
    refine ⟨_, rfl, by simp, ?_⟩
    intro row hrow
    obtain ⟨i, _, rfl⟩ := List.mem_map.mp hrow
    simp
  obtain ⟨coeff, h1, h2, h3⟩ := emap_general hgood
  refine ⟨coeff, h1, by simpa [chanNorms, hB] using h2, ?_⟩
  intro cb hcb
  exact h3 cb hcb

/-- C7: for every input of shape `[B, C, 3]` (with the layer's architectural
widths), `EquivariantReconstructionLayer.forward` returns a tensor of shape
`[B, R, 3, 3]` where `output[b, r]` equals the sum over compressed channels
`c` of `coeff[b, r, c]` times the self outer product of compressed channel
`c`, with `coeff` derived from the per-channel norms; every output matrix is
symmetric, and a zero compressed channel's scaled outer product is exactly
the zero matrix, so it contributes zero to every output tensor. -/
theorem reconstruction_outer_sum (p : ReconP) (cv : T3) (B C : Nat)
    (hrect : Rect3 cv B C 3) (hC : 0 < C)
    (hin : p.l1.inF = C)
    (hb1 : p.l1.bias.length = p.l1.weight.length)
    (hmid : p.l2.inF = p.l1.weight.length)
    (hb2 : p.l2.bias.length = p.l2.weight.length)
    (hRC : p.l2.weight.length = p.reconstructedChannels * p.compressedChannels)
    (hCc : p.compressedChannels = C) :
    ∃ coeff out, reconCoeff p cv = .ok coeff ∧ reconForward p cv = .ok out ∧
      Rect4 out B p.reconstructedChannels 3 3 ∧
      (∀ b < B, ∀ r < p.reconstructedChannels, ∀ i < 3, ∀ j < 3,
        at2 (mat4 out b r) i j =
          ((List.range C).map
            (fun c => at3 coeff b r c * (at1 (row3 cv b c) i * at1 (row3 cv b c) j))).sum) ∧
      (∀ b < B, ∀ r < p.reconstructedChannels, ∀ i < 3, ∀ j < 3,
        at2 (mat4 out b r) i j = at2 (mat4 out b r) j i) ∧
      (∀ w : ℝ, scaleMat w (outerSelf (List.replicate 3 0)) =
        List.replicate 3 (List.replicate 3 0)) := by
  obtain ⟨coeff, hcoeff, hclen, hcshape⟩ := reconCoeff_ok p cv B C hrect hin hb1 hmid hb2 hRC
  obtain ⟨hB, hrows⟩ := hrect
  set tensors : T4 := cv.map (fun chs => chs.map outerSelf) with htens
  have htlen : tensors.length = B := by simp [htens, hB]
  have hqlen : coeff.length = tensors.length := by omega
  have hk : ∀ pr ∈ coeff.zip tensors,
      (fun cb tb =>
        emap
          (fun wrow =>
            match bzipL (fun w m => Except.ok (scaleMat w m)) wrow tb with
            | .error e => .error e
            | .ok scaled => .ok (sumMats scaled)) cb) pr.1 pr.2 =
        .ok ((fun cb tb =>
          cb.map (fun wrow => sumMats (List.zipWith scaleMat wrow tb))) pr.1 pr.2) := by
    intro pr hpr
    have hcb := (List.of_mem_zip hpr).1
    have htb := (List.of_mem_zip hpr).2
    obtain ⟨chs, hchs, htbeq⟩ := List.mem_map.mp htb
    refine emap_ok_of ?_
    intro wrow hwrow
    have hwl : wrow.length = tensors.length.pred.succ * 0 + pr.2.length := by
      simp [(hcshape pr.1 hcb).2 wrow hwrow, hCc, ← htbeq, (hrows chs hchs).1]
    have hwl2 : wrow.length = pr.2.length := by omega
    rw [bzipL_eq_ezip hwl2, ezip_ok_of hwl2 (fun _ _ => rfl)]
  have heins :
      einsumBrcBcij coeff tensors =
        .ok (List.zipWith
          (fun cb tb => cb.map (fun wrow => sumMats (List.zipWith scaleMat wrow tb)))
          coeff tensors) := by
    unfold einsumBrcBcij
    exact ezip_ok_of hqlen hk
  set out : T4 :=
    List.zipWith
      (fun cb tb => cb.map (fun wrow => sumMats (List.zipWith scaleMat wrow tb)))
      coeff tensors with hout
  have hforward : reconForward p cv = .ok out := by
    unfold reconForward
    rw [hcoeff]
    dsimp only
    rw [← htens, heins, hout]
  -- shape of a generic output matrix
  have hmatshape : ∀ b < B, ∀ r < p.reconstructedChannels,
      mat4 out b r =
        sumMats (List.zipWith scaleMat (row3 coeff b r) ((cv.getD b []).map outerSelf)) := by
    intro b hb r hr
    unfold mat4 row3
    rw [hout]
    rw [getD_zipWith_lt _ (by omega) (by omega) [] []]
    have hcb : coeff.getD b [] ∈ coeff := getD_mem_lt (by omega) []
    have hcbl : (coeff.getD b []).length = p.reconstructedChannels := (hcshape _ hcb).1
    rw [getD_map_lt _ (by omega) []]
    rw [htens, getD_map_lt _ (by omega) []]
  have hrowlen : ∀ b < B, ∀ r < p.reconstructedChannels,
      (row3 coeff b r).length = C := by
    intro b hb r hr
    have hcb : coeff.getD b [] ∈ coeff := getD_mem_lt (by omega) []
    have hcbl : (coeff.getD b []).length = p.reconstructedChannels := (hcshape _ hcb).1
    exact ((hcshape _ hcb).2 _ (getD_mem_lt (by omega) [])).trans hCc
  have hchlen : ∀ b < B, (cv.getD b []).length = C ∧ ∀ r ∈ cv.getD b [], r.length = 3 := by
    intro b hb
    exact hrows _ (getD_mem_lt (by omega) [])
  have hzip_mem_rect : ∀ b < B, ∀ r < p.reconstructedChannels,
      ∀ M ∈ List.zipWith scaleMat (row3 coeff b r) ((cv.getD b []).map outerSelf),
        Rect2 M 3 3 := by
    intro b hb r hr M hM
    obtain ⟨w, _, tb', htb', rfl⟩ := mem_zipWith_exists hM
    obtain ⟨v, hv, rfl⟩ := List.mem_map.mp htb'
    exact scaleMat_rect (outerSelf_rect ((hchlen b hb).2 v hv)) w
  have hzip_ne : ∀ b < B, ∀ r < p.reconstructedChannels,
      List.zipWith scaleMat (row3 coeff b r) ((cv.getD b []).map outerSelf) ≠ [] := by
    intro b hb r hr
    have : (List.zipWith scaleMat (row3 coeff b r) ((cv.getD b []).map outerSelf)).length = C := by
      rw [List.length_zipWith, hrowlen b hb r hr, List.length_map, (hchlen b hb).1, min_self]
    intro hnil
    rw [hnil] at this
    simp at this
    omega
  have hformula : ∀ b < B, ∀ r < p.reconstructedChannels, ∀ i < 3, ∀ j < 3,
      at2 (mat4 out b r) i j =
        ((List.range C).map
          (fun c => at3 coeff b r c * (at1 (row3 cv b c) i * at1 (row3 cv b c) j))).sum := by
    intro b hb r hr i hi j hj
    rw [hmatshape b hb r hr]
    rw [at2_sumMats (hzip_ne b hb r hr) (hzip_mem_rect b hb r hr) hi hj]
    rw [zipWith_eq_range_map scaleMat (hrowlen b hb r hr)
      (by rw [List.length_map]; exact (hchlen b hb).1) (0 : ℝ) []]
    rw [List.map_map]
    refine congrArg List.sum (List.map_congr_left ?_)
    intro c hc
    have hcC : c < C := by simpa using hc
    simp only [Function.comp]
    rw [getD_map_lt _ (by have := (hchlen b hb).1; omega) []]
    rw [at2_scaleMat, at2_outerSelf]
    rfl
  refine ⟨coeff, out, hcoeff, hforward, ?_, hformula, ?_, ?_⟩
  · refine ⟨by simp [hout, hqlen, htlen], ?_⟩
    intro x hx
    rw [hout] at hx
    obtain ⟨cb, hcb, tb, htb, rfl⟩ := mem_zipWith_exists hx
    obtain ⟨chs, hchs, htbeq⟩ := List.mem_map.mp htb
    refine ⟨by simp [(hcshape cb hcb).1], ?_⟩
    intro M hM
    obtain ⟨wrow, hwrow, rfl⟩ := List.mem_map.mp hM
    have hwl : wrow.length = C := ((hcshape cb hcb).2 wrow hwrow).trans hCc
    have htbl : tb.length = C := by rw [← htbeq]; simp [(hrows chs hchs).1]
    have hne : List.zipWith scaleMat wrow tb ≠ [] := by
      intro hnil
      have : (List.zipWith scaleMat wrow tb).length = C := by
        rw [List.length_zipWith, hwl, htbl, min_self]
      rw [hnil] at this
      simp at this
      omega
    have hmem : ∀ M2 ∈ List.zipWith scaleMat wrow tb, Rect2 M2 3 3 := by
      intro M2 hM2
      obtain ⟨w, _, tb2, htb2, rfl⟩ := mem_zipWith_exists hM2
      rw [← htbeq] at htb2
      obtain ⟨v, hv, rfl⟩ := List.mem_map.mp htb2
      exact scaleMat_rect (outerSelf_rect ((hrows chs hchs).2 v hv)) w
    have := sumMats_rect hne hmem
    exact ⟨this.1, this.2⟩
  · intro b hb r hr i hi j hj
    rw [hformula b hb r hr i hi j hj, hformula b hb r hr j hj i hi]
    refine congrArg List.sum (List.map_congr_left ?_)
    intro c _
    ring
  · intro w
    simp [outerSelf, scaleMat, List.replicate]

/-- Concrete reconstruction-layer parameters for the C7 witness (the
source's architecture with `compressed_channels = 1`,
`reconstructed_channels = 1`, hidden width 32, zero weights). -/
def c7p : ReconP :=
  ⟨1, 1, ⟨1, List.replicate 32 [0], List.replicate 32 0⟩,
   ⟨32, [List.replicate 32 0], [0]⟩⟩

/-- A concrete `[1, 1, 3]` input for the C7 witness. -/
def c7v : T3 := [[[1, 0, 2]]]

theorem reconstruction_outer_sum_witness :
    (Rect3 c7v 1 1 3 ∧ 0 < 1 ∧ c7p.l1.inF = 1
      ∧ c7p.l1.bias.length = c7p.l1.weight.length
      ∧ c7p.l2.inF = c7p.l1.weight.length
      ∧ c7p.l2.bias.length = c7p.l2.weight.length
      ∧ c7p.l2.weight.length = c7p.reconstructedChannels * c7p.compressedChannels
      ∧ c7p.compressedChannels = 1)
    ∧ ∃ coeff out, reconCoeff c7p c7v = .ok coeff ∧ reconForward c7p c7v = .ok out ∧
        Rect4 out 1 c7p.reconstructedChannels 3 3 ∧
        (∀ b < 1, ∀ r < c7p.reconstructedChannels, ∀ i < 3, ∀ j < 3,
          at2 (mat4 out b r) i j =
            ((List.range 1).map
              (fun c => at3 coeff b r c * (at1 (row3 c7v b c) i * at1 (row3 c7v b c) j))).sum) ∧
        (∀ b < 1, ∀ r < c7p.reconstructedChannels, ∀ i < 3, ∀ j < 3,
          at2 (mat4 out b r) i j = at2 (mat4 out b r) j i) ∧
        (∀ w : ℝ, scaleMat w (outerSelf (List.replicate 3 0)) =
          List.replicate 3 (List.replicate 3 0)) :=
  ⟨⟨by decide, by decide, by decide, by decide, by decide, by decide, by decide, by decide⟩,
   reconstruction_outer_sum c7p c7v 1 1 (by decide) (by decide) (by decide) (by decide)
     (by decide) (by decide) (by decide) (by decide)⟩

/-! ### Claim C4 -/

/-- C4 (amended): for every input whatsoever, `PaiNNInteraction.forward`
never returns a `(q', mu', dtm)` triple — every evaluation fails before the
return statement on line 141: at the malformed
`self.compression_layer(torch.transpose(mui), 1, 2)` call on line 136 if
execution reaches it, or at an earlier shape/index check. -/
theorem interaction_forward_never_returns (p : InteractionP) (q mu Wij : T3)
    (dir_ij : T2) (idx_i idx_j : List Int) (n_atoms : Nat) :
    isOkE (interactionForward p q mu Wij dir_ij idx_i idx_j n_atoms).1 = false := by
  unfold interactionForward
  cases hA : stageA p q mu Wij idx_i idx_j n_atoms with
  | error e => rfl
  | ok r =>
    obtain ⟨dq0, dq, dmuR, dmumu, muj, mui⟩ := r
    dsimp only
    cases hcf : compressionForward p.comp muj with
    | mk v k =>
      cases v with
      | error e => rfl
      | ok cvj =>
        dsimp only
        cases h1 : bmul3 dmuR (dirExpand dir_ij) with
        | error e => rfl
        | ok t1 =>
          dsimp only
          cases h2 : bmul3 dmumu cvj with
          | error e => rfl
          | ok t2 =>
            dsimp only
            cases h3 : badd3 t1 t2 with
            | error e => rfl
            | ok dmu0 =>
              dsimp only
              cases h4 : scatterAdd dmu0 idx_i n_atoms with
              | error e => rfl
              | ok dmu => rfl

/-- Interaction parameters with `n_atom_basis = 1` as the constructor on
lines 83-97 builds them (context net `Dense(1,1) → Dense(1,3)`, compression
layer `Linear(2, 32) → ReLU → Linear(32, 1) → Softmax`, reconstruction
layer `Linear(1, 32) → ReLU → Linear(32, 1)`), all weights zero, identity
activation. -/
def c4p : InteractionP :=
  ⟨1,
   ⟨⟨1, [[0]], [0]⟩, id⟩,
   ⟨⟨1, [[0], [0], [0]], [0, 0, 0]⟩, id⟩,
   ⟨⟨2, List.replicate 32 [0, 0], List.replicate 32 0⟩,
    ⟨32, [List.replicate 32 0], [0]⟩⟩,
   ⟨1, 1, ⟨1, List.replicate 32 [0], List.replicate 32 0⟩,
    ⟨32, [List.replicate 32 0], [0]⟩⟩⟩

/-- Counterexample input for C4: one atom, one edge, `q : [1, 1, 1]`,
`mu : [1, 3, 2]` — exactly the documented vector-feature layout
`[atoms, 3, 2F]` the orchestrator allocates on line 324 (`F = 1`),
`Wij : [1, 1, 3]` of width `3F`, valid indices. -/
def c4q : T3 := [[[2]]]

def c4mu : T3 := [[[1, 2], [3, 4], [5, 6]]]

def c4w : T3 := [[[1, 1, 1]]]

def c4dir : T2 := [[1, 0, 0]]

/-- C4 counterexample: on a shape-valid input with the documented
`[atoms, 3, 2F]` layout of `mu`, `PaiNNInteraction.forward` does NOT fail
at the `torch.transpose(mui)` step of line 136 (`Err.typeError`): it fails
earlier, inside the first compression-layer call on line 130, with a shape
error (the layer norms the trailing dim of size `2F` and feeds a width-3
row into `Linear(2F, 32)`), executing no `print`. -/
theorem interaction_forward_fails_before_transpose_example :
    interactionForward c4p c4q c4mu c4w c4dir [0] [0] 1 = (.error .shape, 0) := by
  rfl

/-! ### Claim C10 -/

/-- Interaction parameters for the C10 run (same architecture as `c4p`). -/
def c10p : InteractionP :=
  ⟨1,
   ⟨⟨1, [[0]], [0]⟩, id⟩,
   ⟨⟨1, [[0], [0], [0]], [0, 0, 0]⟩, id⟩,
   ⟨⟨2, List.replicate 32 [0, 0], List.replicate 32 0⟩,
    ⟨32, [List.replicate 32 0], [0]⟩⟩,
   ⟨1, 1, ⟨1, List.replicate 32 [0], List.replicate 32 0⟩,
    ⟨32, [List.replicate 32 0], [0]⟩⟩⟩

/-- Input for the C10 run: `mu : [1, 2, 3]` in the channel-major layout the
compression layer documents (`[batch, num_vector_channels, 3]`), so the
line-130 compression call succeeds and its `print()` executes. -/
def c10q : T3 := [[[2]]]

def c10mu : T3 := [[[1, 2, 3], [4, 5, 6]]]

def c10w : T3 := [[[1, 1, 1]]]

def c10dir : T2 := [[1, 0, 0]]

/-- C10: `PaiNNInteraction.forward` is not free of observable output: on a
concrete input whose first compression call succeeds, the stray `print()`
on line 33 of `EquivariantCompressionLayer.forward` executes exactly once
(writing a newline to stdout) before the forward fails at line 136. -/
theorem interaction_forward_prints :
    interactionForward c10p c10q c10mu c10w c10dir [0] [0] 1 =
      (.error .typeError, 1) := by
  rfl

/-! ### Claim C1 -/

/-- A `PaiNN` module assembled exactly as the constructor on lines 209-283
does for `n_atom_basis = 8`, `n_interactions = 1`, `shared_filters =
False`: the blocks receive `self.n_atom_basis = 8 // 2 = 4`, the filter
net maps `n_rbf = 4` features to `n_interactions * 3 * 8 = 24`, the
default embedding is `nn.Embedding(100, 8)`.  All learned weights are
zero, the radial basis is a constant 4-vector, the cutoff is constant 1,
the activation the identity. -/
def painn1 : PaiNNP :=
  ⟨8, 1,
   List.replicate 100 (List.replicate 8 0),
   [],
   fun _ => [0, 0, 0, 0],
   fun _ => 1,
   ⟨4, List.replicate 24 [0, 0, 0, 0], List.replicate 24 0⟩,
   false,
   [⟨4,
     ⟨⟨4, List.replicate 4 (List.replicate 4 0), List.replicate 4 0⟩, id⟩,
     ⟨⟨4, List.replicate 12 (List.replicate 4 0), List.replicate 12 0⟩, id⟩,
     ⟨⟨8, List.replicate 32 (List.replicate 8 0), List.replicate 32 0⟩,
      ⟨32, List.replicate 4 (List.replicate 32 0), List.replicate 4 0⟩⟩,
     ⟨4, 4, ⟨4, List.replicate 32 (List.replicate 4 0), List.replicate 32 0⟩,
      ⟨32, List.replicate 16 (List.replicate 32 0), List.replicate 16 0⟩⟩⟩],
   [⟨4,
     ⟨⟨8, List.replicate 4 (List.replicate 8 0), List.replicate 4 0⟩, id⟩,
     ⟨⟨4, List.replicate 12 (List.replicate 4 0), List.replicate 12 0⟩, id⟩,
     ⟨4, List.replicate 8 (List.replicate 4 0), List.replicate 8 0⟩,
     1⟩]⟩

/-- C1: `PaiNN.forward` never emits `scalar_representation` or
`vector_representation`, for any rotation of the inputs or none: on the
spec's own end-to-end example (2 atoms, edges `idx_i = [0,1]`,
`idx_j = [1,0]`, `r_ij = [[1,0,0],[-1,0,0]]`), evaluation fails with a
shape error inside the first interaction block — the embedding produces
width-8 scalars but the interaction's context net was built with width
`8 // 2 = 4` — so the forward raises before any representation exists,
and the claimed rotation equivariance of the outputs cannot hold. -/
theorem painn_forward_fails_on_example :
    painnForward painn1 [1, 1] [[1, 0, 0], [-1, 0, 0]] [0, 1] [1, 0] =
      (.error .shape, 0) := by
  rfl

/-! ### Claim C8: grouped summation -/

theorem zadd1_right_comm : ∀ (x a b : T1), zadd1 (zadd1 x a) b = zadd1 (zadd1 x b) a := by
  intro x
  induction x with
  | nil => intro a b; simp [zadd1]
  | cons h t ih =>
    intro a b
    cases a with
    | nil => simp [zadd1]
    | cons ha ta =>
      cases b with
      | nil => simp [zadd1]
      | cons hb tb =>
        simp only [zadd1, List.zipWith_cons_cons]
        have hrec := ih ta tb
        simp only [zadd1] at hrec
        rw [hrec]
        congr 1
        ring

theorem zadd2_right_comm : ∀ (x a b : T2), zadd2 (zadd2 x a) b = zadd2 (zadd2 x b) a := by
  intro x
  induction x with
  | nil => intro a b; simp [zadd2]
  | cons h t ih =>
    intro a b
    cases a with
    | nil => simp [zadd2]
    | cons ha ta =>
      cases b with
      | nil => simp [zadd2]
      | cons hb tb =>
        simp only [zadd2, List.zipWith_cons_cons]
        have hrec := ih ta tb
        simp only [zadd2] at hrec
        rw [hrec]
        congr 1
        exact zadd1_right_comm h ha hb

theorem scatterStep_pos {b : List T2} {v : T2} {i : Int}
    (h : 0 ≤ i ∧ i.toNat < b.length) :
    scatterStep b v i = .ok (b.set i.toNat (zadd2 (b.get ⟨i.toNat, h.2⟩) v)) :=
  dif_pos h

theorem scatterStep_neg {b : List T2} {v : T2} {i : Int}
    (h : ¬(0 ≤ i ∧ i.toNat < b.length)) : scatterStep b v i = .error .index :=
  dif_neg h

theorem scatterStep_length {b : List T2} {v : T2} {i : Int} {out : List T2}
    (h : scatterStep b v i = .ok out) : out.length = b.length := by
  unfold scatterStep at h
  split at h
  · cases h
    simp
  · exact Except.noConfusion h

theorem scatterAux_ok_length : ∀ {l : List (T2 × Int)} {b out : List T2},
    scatterAux b l = .ok out → out.length = b.length := by
  intro l
  induction l with
  | nil => intro b out h; cases h; rfl
  | cons p t ih =>
    intro b out h
    obtain ⟨v, i⟩ := p
    simp only [scatterAux] at h
    cases hs : scatterStep b v i with
    | error e => rw [hs] at h; exact Except.noConfusion h
    | ok b2 =>
      rw [hs] at h
      exact (ih h).trans (scatterStep_length hs)

theorem set_add_comm (b : List T2) (t1 t2 : Nat) (v1 v2 : T2)
    (h1 : t1 < b.length) (h2 : t2 < b.length) :
    (b.set t1 (zadd2 b[t1] v1)).set t2
        (zadd2 ((b.set t1 (zadd2 b[t1] v1)).get ⟨t2, by simpa using h2⟩) v2) =
      (b.set t2 (zadd2 b[t2] v2)).set t1
        (zadd2 ((b.set t2 (zadd2 b[t2] v2)).get ⟨t1, by simpa using h1⟩) v1) := by
  simp only [List.get_eq_getElem]
  by_cases he : t1 = t2
  · subst he
    rw [List.getElem_set_self (by simpa using h1), List.getElem_set_self (by simpa using h1)]
    rw [List.set_set, List.set_set, zadd2_right_comm]
  · rw [List.getElem_set_ne he _, List.getElem_set_ne (Ne.symm he) _]
    exact List.set_comm _ _ _ he

theorem scatterAux_swap (b : List T2) (v1 v2 : T2) (i1 i2 : Int)
    (rest : List (T2 × Int)) :
    scatterAux b ((v1, i1) :: (v2, i2) :: rest) =
      scatterAux b ((v2, i2) :: (v1, i1) :: rest) := by
  simp only [scatterAux]
  by_cases h1 : 0 ≤ i1 ∧ i1.toNat < b.length
  · by_cases h2 : 0 ≤ i2 ∧ i2.toNat < b.length
    · rw [scatterStep_pos h1, scatterStep_pos h2]
      dsimp only
      have h2' : 0 ≤ i2 ∧
          i2.toNat < (b.set i1.toNat (zadd2 (b.get ⟨i1.toNat, h1.2⟩) v1)).length :=
        ⟨h2.1, by simpa using h2.2⟩
      have h1' : 0 ≤ i1 ∧
          i1.toNat < (b.set i2.toNat (zadd2 (b.get ⟨i2.toNat, h2.2⟩) v2)).length :=
        ⟨h1.1, by simpa using h1.2⟩
      rw [scatterStep_pos h2', scatterStep_pos h1']
      dsimp only
      congr 1
      simp only [List.get_eq_getElem]
      exact set_add_comm b i1.toNat i2.toNat v1 v2 h1.2 h2.2
    · rw [scatterStep_pos h1, scatterStep_neg h2]
      dsimp only
      have h2' : ¬(0 ≤ i2 ∧
          i2.toNat < (b.set i1.toNat (zadd2 (b.get ⟨i1.toNat, h1.2⟩) v1)).length) := by
        simpa using h2
      rw [scatterStep_neg h2']
  · by_cases h2 : 0 ≤ i2 ∧ i2.toNat < b.length
    · rw [scatterStep_neg h1, scatterStep_pos h2]
      dsimp only
      have h1' : ¬(0 ≤ i1 ∧
          i1.toNat < (b.set i2.toNat (zadd2 (b.get ⟨i2.toNat, h2.2⟩) v2)).length) := by
        simpa using h1
      rw [scatterStep_neg h1']
    · rw [scatterStep_neg h1, scatterStep_neg h2]

theorem scatterAux_perm {l l' : List (T2 × Int)} (hp : l.Perm l') :
    ∀ b, scatterAux b l = scatterAux b l' := by
  induction hp with
  | nil => intro _; rfl
  | cons x _ ih =>
    intro b
    obtain ⟨v, i⟩ := x
    simp only [scatterAux]
    cases hs : scatterStep b v i with
    | error e => rfl
    | ok b2 => exact ih b2
  | swap x y _ =>
    intro b
    obtain ⟨v1, i1⟩ := x
    obtain ⟨v2, i2⟩ := y
    exact scatterAux_swap b v2 v1 i2 i1 _
  | trans _ _ ih1 ih2 => intro b; exact (ih1 b).trans (ih2 b)

theorem scatterAux_untouched : ∀ {l : List (T2 × Int)} {b out : List T2} {a : Nat},
    scatterAux b l = .ok out → (∀ p ∈ l, p.2 ≠ (a : Int)) →
      out.getD a [] = b.getD a [] := by
  intro l
  induction l with
  | nil => intro b out a h _; cases h; rfl
  | cons p t ih =>
    intro b out a h hne
    obtain ⟨v, i⟩ := p
    simp only [scatterAux] at h
    cases hs : scatterStep b v i with
    | error e => rw [hs] at h; exact Except.noConfusion h
    | ok b2 =>
      rw [hs] at h
      have hrec := ih h (fun p hp => hne p (by simp [hp]))
      rw [hrec]
      unfold scatterStep at hs
      split at hs
      · cases hs
        rename_i hc
        have hia : i.toNat ≠ a := by
          intro hEq
          exact absurd (by omega : i = (a : Int)) (hne (v, i) (by simp))
        simp [List.getD_eq_getElem?_getD, List.getElem?_set_ne hia]
      · exact Except.noConfusion hs

theorem scatterAux_all_ok : ∀ {l : List (T2 × Int)} {b : List T2},
    (∀ p ∈ l, 0 ≤ p.2 ∧ p.2.toNat < b.length) → ∃ out, scatterAux b l = .ok out := by
  intro l
  induction l with
  | nil => intro b _; exact ⟨b, rfl⟩
  | cons p t ih =>
    intro b hall
    obtain ⟨v, i⟩ := p
    have h1 := hall (v, i) (by simp)
    simp only [scatterAux]
    rw [scatterStep_pos h1]
    dsimp only
    refine ih ?_
    intro p hp
    have := hall p (by simp [hp])
    simpa using this

theorem scatterAux_error : ∀ {l : List (T2 × Int)} {b : List T2},
    (∃ p ∈ l, ¬(0 ≤ p.2 ∧ p.2.toNat < b.length)) →
      scatterAux b l = .error .index := by
  intro l
  induction l with
  | nil => intro b h; simp at h
  | cons p t ih =>
    intro b h
    obtain ⟨v, i⟩ := p
    simp only [scatterAux]
    by_cases h1 : 0 ≤ i ∧ i.toNat < b.length
    · rw [scatterStep_pos h1]
      dsimp only
      refine ih ?_
      obtain ⟨p', hp', hbad⟩ := h
      rcases List.mem_cons.mp hp' with rfl | hmem
      · exact absurd h1 hbad
      · exact ⟨p', hmem, by simpa using hbad⟩
    · rw [scatterStep_neg h1]

/-- C8: the per-atom aggregates of `PaiNNInteraction.forward` are grouped
sums over edges sharing the target index `idx_i`: the `dq` the interaction
pipeline returns is literally `scatter_add` of the per-edge scalar messages
(the same primitive aggregates `dmu` on line 132); and for every successful
grouped sum, the result has exactly `output_size = atom_count` buckets, is
invariant under any permutation of the (value, index) edge pairs, and every
atom whose index does not occur in `idx_i` receives exactly the zero
slice. -/
theorem scatter_grouped_sum_props :
    (∀ (p : InteractionP) (q mu Wij : T3) (idx_i idx_j : List Int) (m : Nat)
        (r : T3 × T3 × T3 × T3 × T3 × T3),
        stageA p q mu Wij idx_i idx_j m = .ok r → scatterAdd r.1 idx_i m = .ok r.2.1)
    ∧ ∀ (vals : List T2) (idx : List Int) (n : Nat) (out : List T2),
        scatterAdd vals idx n = .ok out →
        out.length = n
        ∧ (∀ (vals' : List T2) (idx' : List Int), vals'.length = idx'.length →
            (vals.zip idx).Perm (vals'.zip idx') →
            zerosLike2 (vals'.headD []) = zerosLike2 (vals.headD []) →
            scatterAdd vals' idx' n = .ok out)
        ∧ (∀ a, a < n → (∀ i ∈ idx, i ≠ (a : Int)) →
            out.getD a [] = zerosLike2 (vals.headD [])) := by
  constructor
  · intro p q mu Wij idx_i idx_j m r h
    unfold stageA at h
    repeat
      first
      | exact Except.noConfusion h
      | split at h
    cases h
    assumption
  · intro vals idx n out h
    unfold scatterAdd at h
    split at h
    case isFalse => exact Except.noConfusion h
    case isTrue hlen =>
      refine ⟨?_, ?_, ?_⟩
      · rw [scatterAux_ok_length h]
        simp
      · intro vals' idx' hlen' hperm hz
        unfold scatterAdd
        rw [if_pos hlen', hz, (scatterAux_perm hperm _).symm]
        exact h
      · intro a ha hnot
        rw [scatterAux_untouched h
          (fun p hp => hnot p.2 (List.of_mem_zip hp).2)]
        rw [List.getD_eq_getElem _ _ (by simpa using ha)]
        simp

theorem bzipL_exact {α β γ : Type} {g : α → β → Except Err γ} {P : γ → Prop}
    {xs : List α} {ys : List β} (hlen : xs.length = ys.length)
    (hgood : ∀ p ∈ xs.zip ys, ∃ z, g p.1 p.2 = .ok z ∧ P z) :
    ∃ out, bzipL g xs ys = .ok out ∧ out.length = xs.length ∧ ∀ z ∈ out, P z := by
  rw [bzipL_eq_ezip hlen]
  exact ezip_general hlen hgood


/-! ### Claim C2: the tail of the interaction block -/

theorem badd2_eq {x y : T2} {m w : Nat} (hx : Rect2 x m w) (hy : Rect2 y m w) :
    badd2 x y = .ok (zadd2 x y) := by
  obtain ⟨hx1, hx2⟩ := hx
  obtain ⟨hy1, hy2⟩ := hy
  unfold badd2
  rw [bzipL_eq_ezip (hx1.trans hy1.symm)]
  exact ezip_ok_of (hx1.trans hy1.symm)
    (fun p hp => bzipR_eq_zipWith
      ((hx2 p.1 (List.of_mem_zip hp).1).trans (hy2 p.2 (List.of_mem_zip hp).2).symm))

theorem badd3_eq {x y : T3} {a b c : Nat} (hx : Rect3 x a b c) (hy : Rect3 y a b c) :
    badd3 x y = .ok (List.zipWith zadd2 x y) := by
  obtain ⟨hx1, hx2⟩ := hx
  obtain ⟨hy1, hy2⟩ := hy
  unfold badd3
  rw [bzipL_eq_ezip (hx1.trans hy1.symm)]
  exact ezip_ok_of (hx1.trans hy1.symm)
    (fun p hp =>
      badd2_eq ⟨(hx2 p.1 (List.of_mem_zip hp).1).1, (hx2 p.1 (List.of_mem_zip hp).1).2⟩
        ⟨(hy2 p.2 (List.of_mem_zip hp).2).1, (hy2 p.2 (List.of_mem_zip hp).2).2⟩)

theorem zipWith_zadd2_rect {x y : T3} {a b c : Nat}
    (hx : Rect3 x a b c) (hy : Rect3 y a b c) :
    Rect3 (List.zipWith zadd2 x y) a b c := by
  obtain ⟨hx1, hx2⟩ := hx
  obtain ⟨hy1, hy2⟩ := hy
  constructor
  · simp [hx1, hy1]
  · intro m hm
    obtain ⟨m1, hm1, m2, hm2, rfl⟩ := mem_zipWith_exists hm
    exact zadd2_rect ⟨(hx2 m1 hm1).1, (hx2 m1 hm1).2⟩ ⟨(hy2 m2 hm2).1, (hy2 m2 hm2).2⟩

theorem at3_zipWith_zadd2 {x y : T3} {a b c : Nat}
    (hx : Rect3 x a b c) (hy : Rect3 y a b c)
    {ai bi ci : Nat} (ha : ai < a) (hb : bi < b) (hc : ci < c) :
    at3 (List.zipWith zadd2 x y) ai bi ci = at3 x ai bi ci + at3 y ai bi ci := by
  obtain ⟨hx1, hx2⟩ := hx
  obtain ⟨hy1, hy2⟩ := hy
  have hmx : x.getD ai [] ∈ x := getD_mem_lt (by omega) []
  have hmy : y.getD ai [] ∈ y := getD_mem_lt (by omega) []
  have hrx : (x.getD ai []).getD bi [] ∈ x.getD ai [] :=
    getD_mem_lt (by rw [(hx2 _ hmx).1]; omega) []
  have hry : (y.getD ai []).getD bi [] ∈ y.getD ai [] :=
    getD_mem_lt (by rw [(hy2 _ hmy).1]; omega) []
  unfold at3 row3 at1
  rw [getD_zipWith_lt _ (by omega) (by omega) [] []]
  unfold zadd2
  rw [getD_zipWith_lt _ (by rw [(hx2 _ hmx).1]; omega) (by rw [(hy2 _ hmy).1]; omega) [] []]
  unfold zadd1
  rw [getD_zipWith_lt _ (by rw [(hx2 _ hmx).2 _ hrx]; omega)
    (by rw [(hy2 _ hmy).2 _ hry]; omega) (0 : ℝ) (0 : ℝ)]

theorem tr2_rect {m : T2} {a b : Nat} (h : Rect2 m a b) (ha : 0 < a) :
    Rect2 (tr2 m) b a := by
  obtain ⟨h1, h2⟩ := h
  have hheadD : (m.headD []).length = b := by
    cases m with
    | nil => simp at h1; omega
    | cons r rs => exact h2 r (by simp)
  constructor
  · unfold tr2
    rw [List.length_map, List.length_range, hheadD]
  · intro r hr
    unfold tr2 at hr
    obtain ⟨j, _, rfl⟩ := List.mem_map.mp hr
    simp [h1]

theorem transpose12_rect {t : T3} {x a b : Nat} (h : Rect3 t x a b) (ha : 0 < a) :
    Rect3 (transpose12 t) x b a := by
  obtain ⟨h1, h2⟩ := h
  constructor
  · simp [transpose12, h1]
  · intro m hm
    obtain ⟨m0, hm0, rfl⟩ := List.mem_map.mp hm
    exact tr2_rect ⟨(h2 m0 hm0).1, (h2 m0 hm0).2⟩ ha

theorem at2_tr2 {m : T2} {a b : Nat} (h : Rect2 m a b) {i j : Nat}
    (hi : i < b) (hj : j < a) : at2 (tr2 m) i j = at2 m j i := by
  obtain ⟨h1, h2⟩ := h
  have hheadD : (m.headD []).length = b := by
    cases m with
    | nil => simp at h1; omega
    | cons r rs => exact h2 r (by simp)
  have hri : (List.range ((m.headD []).length)).getD i 0 = i := by
    rw [List.getD_eq_getElem _ _ (by rw [List.length_range, hheadD]; exact hi)]
    exact List.getElem_range _ _
  unfold at2 at1 tr2
  rw [getD_map_lt _ (by rw [List.length_range, hheadD]; exact hi) 0]
  rw [getD_map_lt _ (by rw [h1]; exact hj) []]
  rw [hri]

theorem at3_transpose12 {t : T3} {x a b : Nat} (h : Rect3 t x a b)
    {ai i j : Nat} (hx : ai < x) (hi : i < b) (hj : j < a) :
    at3 (transpose12 t) ai i j = at3 t ai j i := by
  obtain ⟨h1, h2⟩ := h
  have hmem : t.getD ai [] ∈ t := getD_mem_lt (by omega) []
  have hr2 : Rect2 (t.getD ai []) a b := ⟨(h2 _ hmem).1, (h2 _ hmem).2⟩
  unfold at3 row3 at1
  unfold transpose12
  rw [getD_map_lt _ (by omega) []]
  have hres := at2_tr2 hr2 hi hj
  unfold at2 at1 at hres
  exact hres

/-- Success of the reconstruction layer on a well-shaped input. -/
theorem reconForward_ok (p : ReconP) (cv : T3) (B C : Nat)
    (hrect : Rect3 cv B C 3)
    (hin : p.l1.inF = C)
    (hb1 : p.l1.bias.length = p.l1.weight.length)
    (hmid : p.l2.inF = p.l1.weight.length)
    (hb2 : p.l2.bias.length = p.l2.weight.length)
    (hRC : p.l2.weight.length = p.reconstructedChannels * p.compressedChannels)
    (hCc : p.compressedChannels = C) :
    ∃ out, reconForward p cv = .ok out := by
  obtain ⟨coeff, hcoeff, hclen, hcshape⟩ := reconCoeff_ok p cv B C hrect hin hb1 hmid hb2 hRC
  obtain ⟨hB, hrows⟩ := hrect
  unfold reconForward
  rw [hcoeff]
  dsimp only
  unfold einsumBrcBcij
  have hgood : ∀ pr ∈ coeff.zip (cv.map (fun chs => chs.map outerSelf)),
      ∃ z, (emap
        (fun wrow =>
          match bzipL (fun w m => Except.ok (scaleMat w m)) wrow pr.2 with
          | .error e => .error e
          | .ok scaled => .ok (sumMats scaled)) pr.1) = .ok z ∧ True := by
    intro pr hpr
    have hcb := (List.of_mem_zip hpr).1
    have htb := (List.of_mem_zip hpr).2
    obtain ⟨chs, hchs, htbeq⟩ := List.mem_map.mp htb
    have hrow : ∀ wrow ∈ pr.1, ∃ y,
        (match bzipL (fun w m => Except.ok (scaleMat w m)) wrow pr.2 with
          | Except.error e => (Except.error e : Except Err T2)
          | Except.ok scaled => Except.ok (sumMats scaled)) = .ok y ∧ True := by
      intro wrow hwrow
      have hwl : wrow.length = pr.2.length := by
        rw [((hcshape pr.1 hcb).2 wrow hwrow), hCc, ← htbeq, List.length_map,
          (hrows chs hchs).1]
      obtain ⟨sc, hsc, _, _⟩ :=
        bzipL_exact (g := fun w m => (Except.ok (scaleMat w m) : Except Err T2))
          (P := fun _ : T2 => True) hwl (fun pp _ => ⟨_, rfl, trivial⟩)
      rw [hsc]
      exact ⟨_, rfl, trivial⟩
    obtain ⟨z, hz, _, _⟩ := emap_general hrow
    exact ⟨z, hz, trivial⟩
  have hlen2 : coeff.length = (cv.map (fun chs => chs.map outerSelf)).length := by
    simp [hclen, hB]
  obtain ⟨out, hout, _, _⟩ :=
    ezip_general
      (g := fun cb tb =>
        emap
          (fun wrow =>
            match bzipL (fun w m => Except.ok (scaleMat w m)) wrow tb with
            | Except.error e => Except.error e
            | Except.ok scaled => Except.ok (sumMats scaled)) cb)
      (P := fun _ : T3 => True) hlen2 hgood
  exact ⟨out, hout⟩

/-- C2 (amended): `PaiNNInteraction.forward` itself never returns (the
line-136 self-term call fails, see C4); in the source's continuation past
that line — lines 137-141, with the self-term value `cvi` taken as given —
the returned vector feature is `mu' = dmu + transpose(cvi, 1, 2)`
entrywise, with the prior `mu` absent from the expression (it is
overwritten, entering only through what `dmu` and `cvi` were computed
from), whereas the scalar output is the additive update `q' = q + dq`. -/
theorem interaction_tail_replaces_mu (p : InteractionP) (q dq dmu cvi : T3)
    (n fw wmu : Nat)
    (hq : Rect3 q n 1 fw) (hdq : Rect3 dq n 1 fw)
    (hdmu : Rect3 dmu n 3 wmu) (hcvi : Rect3 cvi n wmu 3)
    (hw : 0 < wmu)
    (hrin : p.recon.l1.inF = wmu)
    (hrb1 : p.recon.l1.bias.length = p.recon.l1.weight.length)
    (hrmid : p.recon.l2.inF = p.recon.l1.weight.length)
    (hrb2 : p.recon.l2.bias.length = p.recon.l2.weight.length)
    (hrRC : p.recon.l2.weight.length =
      p.recon.reconstructedChannels * p.recon.compressedChannels)
    (hrCc : p.recon.compressedChannels = wmu) :
    ∃ q' mu' dtm, interactionTail p q dq dmu cvi = .ok (q', mu', dtm) ∧
      (∀ a < n, ∀ i < 3, ∀ j < wmu,
        at3 mu' a i j = at3 dmu a i j + at3 cvi a j i) ∧
      (∀ a < n, ∀ f < fw, at3 q' a 0 f = at3 q a 0 f + at3 dq a 0 f) := by
  have htr : Rect3 (transpose12 cvi) n 3 wmu := transpose12_rect hcvi hw
  have hq' := badd3_eq hq hdq
  have hmu' := badd3_eq hdmu htr
  have hmu'r : Rect3 (List.zipWith zadd2 dmu (transpose12 cvi)) n 3 wmu :=
    zipWith_zadd2_rect hdmu htr
  have htr2 : Rect3 (transpose12 (List.zipWith zadd2 dmu (transpose12 cvi))) n wmu 3 :=
    transpose12_rect hmu'r (by omega)
  obtain ⟨dtm, hdtm⟩ :=
    reconForward_ok p.recon _ n wmu htr2 hrin hrb1 hrmid hrb2 hrRC hrCc
  unfold interactionTail
  rw [hq']
  dsimp only
  rw [hmu']
  dsimp only
  rw [hdtm]
  dsimp only
  refine ⟨_, _, dtm, rfl, ?_, ?_⟩
  · intro a ha i hi j hj
    rw [at3_zipWith_zadd2 hdmu htr ha hi hj]
    congr 1
    exact at3_transpose12 hcvi ha hi hj
  · intro a ha f hf
    rw [at3_zipWith_zadd2 hq hdq ha (by omega) hf]

/-- Concrete grouped-sum input for the C8 witness: one edge targeting atom
0 out of 2 atoms. -/
def c8vals : List T2 := [[[1, 2]]]

def c8idx : List Int := [0]

/-- The grouped sum of `c8vals` along `c8idx` into 2 buckets. -/
def c8out : List T2 := [[[0 + 1, 0 + 2]], [[0, 0]]]

/-! ### Claim C9: index and shape error behaviour of the message pipeline -/

theorem emap_error_uniform {α β : Type} {f : α → Except Err β} {e : Err} :
    ∀ {l : List α}, (∀ x ∈ l, f x = .error e ∨ ∃ y, f x = .ok y) →
      (∃ x ∈ l, f x = .error e) → emap f l = .error e := by
  intro l
  induction l with
  | nil => intro _ hsome; simp at hsome
  | cons a t ih =>
    intro hall hsome
    simp only [emap]
    rcases hall a (by simp) with hae | ⟨y, hy⟩
    · rw [hae]
    · rw [hy]
      obtain ⟨x, hx, hxe⟩ := hsome
      rcases List.mem_cons.mp hx with rfl | hmem
      · rw [hy] at hxe; exact Except.noConfusion hxe
      · rw [ih (fun z hz => hall z (by simp [hz])) ⟨x, hmem, hxe⟩]

theorem gather1_ok {α : Type} {t : List α} {i : Int}
    (h : -(t.length : Int) ≤ i ∧ i < t.length) :
    ∃ x, gather1 t i = .ok x ∧ x ∈ t := by
  unfold gather1
  dsimp only
  have hc : (0 ≤ if i < 0 then i + (t.length : Int) else i) ∧
      (if i < 0 then i + (t.length : Int) else i).toNat < t.length := by
    split_ifs <;> omega
  rw [dif_pos hc]
  exact ⟨_, rfl, List.get_mem t _ _⟩

theorem gather1_error {α : Type} {t : List α} {i : Int}
    (h : ¬(-(t.length : Int) ≤ i ∧ i < t.length)) :
    gather1 t i = .error .index := by
  unfold gather1
  dsimp only
  have hc : ¬((0 ≤ if i < 0 then i + (t.length : Int) else i) ∧
      (if i < 0 then i + (t.length : Int) else i).toNat < t.length) := by
    split_ifs <;> omega
  rw [dif_neg hc]

theorem gather_ok {α : Type} {t : List α} {idx : List Int}
    (h : ∀ i ∈ idx, -(t.length : Int) ≤ i ∧ i < t.length) :
    ∃ out, gather t idx = .ok out ∧ out.length = idx.length ∧ ∀ x ∈ out, x ∈ t := by
  unfold gather
  exact emap_general (fun i hi => gather1_ok (h i hi))

theorem gather_error {α : Type} {t : List α} {idx : List Int}
    (h : ∃ i ∈ idx, ¬(-(t.length : Int) ≤ i ∧ i < t.length)) :
    gather t idx = .error .index := by
  unfold gather
  refine emap_error_uniform ?_ ?_
  · intro i _
    by_cases hi : -(t.length : Int) ≤ i ∧ i < t.length
    · obtain ⟨x, hx, _⟩ := gather1_ok hi
      exact Or.inr ⟨x, hx⟩
    · exact Or.inl (gather1_error hi)
  · obtain ⟨i, hi, hbad⟩ := h
    exact ⟨i, hi, gather1_error hbad⟩

theorem DenseM.run3_ok {d : DenseM} {t : T3} {a b w : Nat}
    (hrect : Rect3 t a b w) (hin : d.lin.inF = w)
    (hbias : d.lin.bias.length = d.lin.weight.length) :
    ∃ u, d.run3 t = .ok u ∧ Rect3 u a b d.lin.weight.length := by
  obtain ⟨hlen, hrows⟩ := hrect
  have hgood : ∀ m ∈ t, ∃ m2, emap d.lin.run m = .ok m2 ∧
      Rect2 m2 b d.lin.weight.length := by
    intro m hm
    have hinner : ∀ r ∈ m, ∃ y, d.lin.run r = .ok y ∧
        y.length = d.lin.weight.length := by
      intro r hr
      rw [LinearM.run_ok (by rw [(hrows m hm).2 r hr, hin])]
      refine ⟨_, rfl, ?_⟩
      simp [hbias]
    obtain ⟨m2, h1, h2, h3⟩ := emap_general hinner
    exact ⟨m2, h1, ⟨h2.trans (hrows m hm).1, h3⟩⟩
  obtain ⟨u0, hu0, hu0len, hu0P⟩ := emap_general hgood
  unfold DenseM.run3 LinearM.run3
  rw [hu0]
  dsimp only
  refine ⟨_, rfl, ?_, ?_⟩
  · simp [hu0len, hlen]
  · intro m hm
    obtain ⟨m0, hm0, rfl⟩ := List.mem_map.mp hm
    obtain ⟨hA, hB⟩ := hu0P m0 hm0
    constructor
    · simp [hA]
    · intro r hr
      obtain ⟨r0, hr0, rfl⟩ := List.mem_map.mp hr
      simp [hB r0 hr0]

theorem bmul2_exact {x y : T2} {m w : Nat} (hx : Rect2 x m w) (hy : Rect2 y m w) :
    ∃ z, bmul2 x y = .ok z ∧ Rect2 z m w := by
  obtain ⟨hx1, hx2⟩ := hx
  obtain ⟨hy1, hy2⟩ := hy
  have hgood : ∀ p ∈ x.zip y, ∃ z, bzipR (· * ·) p.1 p.2 = .ok z ∧ z.length = w := by
    intro p hp
    have hpx := hx2 p.1 (List.of_mem_zip hp).1
    have hpy := hy2 p.2 (List.of_mem_zip hp).2
    rw [bzipR_eq_zipWith (hpx.trans hpy.symm)]
    refine ⟨_, rfl, ?_⟩
    simp [hpx, hpy]
  obtain ⟨z, h1, h2, h3⟩ := bzipL_exact (hx1.trans hy1.symm) hgood
  exact ⟨z, h1, ⟨h2.trans hx1, h3⟩⟩

theorem bmul3_exact {x y : T3} {a b c : Nat} (hx : Rect3 x a b c) (hy : Rect3 y a b c) :
    ∃ z, bmul3 x y = .ok z ∧ Rect3 z a b c := by
  obtain ⟨hx1, hx2⟩ := hx
  obtain ⟨hy1, hy2⟩ := hy
  have hgood : ∀ p ∈ x.zip y, ∃ z, bmul2 p.1 p.2 = .ok z ∧ Rect2 z b c :=
    fun p hp =>
      bmul2_exact ⟨(hx2 p.1 (List.of_mem_zip hp).1).1, (hx2 p.1 (List.of_mem_zip hp).1).2⟩
        ⟨(hy2 p.2 (List.of_mem_zip hp).2).1, (hy2 p.2 (List.of_mem_zip hp).2).2⟩
  obtain ⟨z, h1, h2, h3⟩ := bzipL_exact (hx1.trans hy1.symm) hgood
  exact ⟨z, h1, ⟨h2.trans hx1, h3⟩⟩

theorem bzipR_error {f : ℝ → ℝ → ℝ} {xs ys : T1} (h1 : xs.length ≠ ys.length)
    (h2 : xs.length ≠ 1) (h3 : ys.length ≠ 1) : bzipR f xs ys = .error .shape := by
  unfold bzipR
  rw [if_neg h1]
  cases xs with
  | nil =>
    cases ys with
    | nil => simp at h1
    | cons b u =>
      cases u with
      | nil => simp at h3
      | cons b2 u2 => rfl
  | cons a t =>
    cases t with
    | nil => simp at h2
    | cons a2 t2 =>
      cases ys with
      | nil => rfl
      | cons b u =>
        cases u with
        | nil => simp at h3
        | cons b2 u2 => rfl

theorem ezip_error_first {α β γ : Type} {g : α → β → Except Err γ} {x : α} {y : β}
    {xs : List α} {ys : List β} {e : Err} (h : g x y = .error e) :
    ezip g (x :: xs) (y :: ys) = .error e := by
  simp [ezip, h]

theorem mem_zip_right_of_mem {α β : Type} :
    ∀ {xs : List α} {ys : List β}, xs.length = ys.length → ∀ {y}, y ∈ ys →
      ∃ x, (x, y) ∈ xs.zip ys := by
  intro xs
  induction xs with
  | nil =>
    intro ys h y hy
    cases ys with
    | nil => simp at hy
    | cons b u => simp at h
  | cons a t ih =>
    intro ys h y hy
    cases ys with
    | nil => simp at hy
    | cons b u =>
      rcases List.mem_cons.mp hy with rfl | hmem
      · exact ⟨a, by simp⟩
      · obtain ⟨x, hx⟩ := ih (by simpa using h) hmem
        exact ⟨x, by simp [hx]⟩

theorem scatterAdd_ok {vals : List T2} {idx : List Int} {n : Nat}
    (hlen : vals.length = idx.length) (hidx : ∀ i ∈ idx, 0 ≤ i ∧ i < (n : Int)) :
    ∃ out, scatterAdd vals idx n = .ok out := by
  unfold scatterAdd
  rw [if_pos hlen]
  refine scatterAux_all_ok ?_
  intro p hp
  have := hidx p.2 (List.of_mem_zip hp).2
  constructor
  · exact this.1
  · simp only [List.length_replicate]
    omega

theorem scatterAdd_bad_index {vals : List T2} {idx : List Int} {n : Nat}
    (hlen : vals.length = idx.length)
    (hbad : ∃ i ∈ idx, ¬(0 ≤ i ∧ i < (n : Int))) :
    scatterAdd vals idx n = .error .index := by
  unfold scatterAdd
  rw [if_pos hlen]
  refine scatterAux_error ?_
  obtain ⟨i, hi, hibad⟩ := hbad
  obtain ⟨v, hv⟩ := mem_zip_right_of_mem hlen hi
  refine ⟨(v, i), hv, ?_⟩
  simp only [List.length_replicate]
  omega

theorem split3T2_ok : ∀ {m : T2} {sz : Nat}, (∀ r ∈ m, r.length = 3 * sz) →
    ∃ r, split3T2 sz m = .ok r ∧
      (r.1.length = m.length ∧ ∀ x ∈ r.1, x.length = sz) ∧
      (r.2.1.length = m.length ∧ ∀ x ∈ r.2.1, x.length = sz) ∧
      (r.2.2.length = m.length ∧ ∀ x ∈ r.2.2, x.length = sz) := by
  intro m
  induction m with
  | nil =>
    intro sz _
    exact ⟨([], [], []), rfl, ⟨rfl, by simp⟩, ⟨rfl, by simp⟩, ⟨rfl, by simp⟩⟩
  | cons r rs ih =>
    intro sz hrows
    obtain ⟨rr, hrr, hA, hB, hC⟩ := ih (fun x hx => hrows x (by simp [hx]))
    obtain ⟨a, b, c⟩ := rr
    have hr := hrows r (by simp)
    simp only [split3T2]
    rw [show split3Row sz r = .ok (r.take sz, (r.drop sz).take sz, (r.drop sz).drop sz)
      from if_pos hr]
    dsimp only
    rw [hrr]
    dsimp only
    refine ⟨_, rfl, ⟨by simp [hA.1], ?_⟩, ⟨by simp [hB.1], ?_⟩, ⟨by simp [hC.1], ?_⟩⟩
    · intro x hx
      rcases List.mem_cons.mp hx with rfl | hmem
      · simp [hr]
        omega
      · exact hA.2 x hmem
    · intro x hx
      rcases List.mem_cons.mp hx with rfl | hmem
      · simp [hr]
        omega
      · exact hB.2 x hmem
    · intro x hx
      rcases List.mem_cons.mp hx with rfl | hmem
      · simp [hr]
        omega
      · exact hC.2 x hmem

theorem split3T3_ok : ∀ {t : T3} {a b sz : Nat}, Rect3 t a b (3 * sz) →
    ∃ r, split3T3 sz t = .ok r ∧
      Rect3 r.1 a b sz ∧ Rect3 r.2.1 a b sz ∧ Rect3 r.2.2 a b sz := by
  intro t
  induction t with
  | nil =>
    intro a b sz hrect
    obtain ⟨hlen, _⟩ := hrect
    exact ⟨([], [], []),
      rfl,
      ⟨by simpa using hlen, by simp⟩,
      ⟨by simpa using hlen, by simp⟩,
      ⟨by simpa using hlen, by simp⟩⟩
  | cons m ms ih =>
    intro a b sz hrect
    obtain ⟨hlen, hmem⟩ := hrect
    simp only [List.length_cons] at hlen
    have hrec : Rect3 ms ms.length b (3 * sz) :=
      ⟨rfl, fun x hx => hmem x (by simp [hx])⟩
    obtain ⟨rr, hrr, hA, hB, hC⟩ := ih hrec
    obtain ⟨a1, b1, c1⟩ := rr
    obtain ⟨r2, hr2, h2A, h2B, h2C⟩ := split3T2_ok (hmem m (by simp)).2
    obtain ⟨a2, b2, c2⟩ := r2
    simp only [split3T3]
    rw [hr2]
    dsimp only
    rw [hrr]
    dsimp only
    refine ⟨_, rfl, ⟨by simp [hA.1]; omega, ?_⟩, ⟨by simp [hB.1]; omega, ?_⟩,
      ⟨by simp [hC.1]; omega, ?_⟩⟩
    · intro x hx
      rcases List.mem_cons.mp hx with rfl | hmem2
      · exact ⟨h2A.1.trans (hmem m (by simp)).1, h2A.2⟩
      · exact hA.2 x hmem2
    · intro x hx
      rcases List.mem_cons.mp hx with rfl | hmem2
      · exact ⟨h2B.1.trans (hmem m (by simp)).1, h2B.2⟩
      · exact hB.2 x hmem2
    · intro x hx
      rcases List.mem_cons.mp hx with rfl | hmem2
      · exact ⟨h2C.1.trans (hmem m (by simp)).1, h2C.2⟩
      · exact hC.2 x hmem2

theorem bmul3_width_error {x y : T3} {e wf w3 : Nat}
    (hx : Rect3 x e 1 wf) (hy : Rect3 y e 1 w3) (he : 0 < e)
    (h1 : wf ≠ w3) (h2 : wf ≠ 1) (h3 : w3 ≠ 1) : bmul3 x y = .error .shape := by
  obtain ⟨hx1, hx2⟩ := hx
  obtain ⟨hy1, hy2⟩ := hy
  unfold bmul3
  rw [bzipL_eq_ezip (hx1.trans hy1.symm)]
  cases x with
  | nil => simp at hx1; omega
  | cons m1 xs =>
    cases y with
    | nil => simp at hy1; omega
    | cons n1 ys =>
      refine ezip_error_first ?_
      obtain ⟨r1, hm1⟩ := List.length_eq_one.mp (hx2 m1 (by simp)).1
      obtain ⟨r2, hn1⟩ := List.length_eq_one.mp (hy2 n1 (by simp)).1
      subst hm1
      subst hn1
      unfold bmul2
      rw [bzipL_eq_ezip (by simp)]
      refine ezip_error_first ?_
      refine bzipR_error ?_ ?_ ?_
      · rw [(hx2 [r1] (by simp)).2 r1 (by simp), (hy2 [r2] (by simp)).2 r2 (by simp)]
        exact h1
      · rw [(hx2 [r1] (by simp)).2 r1 (by simp)]
        exact h2
      · rw [(hy2 [r2] (by simp)).2 r2 (by simp)]
        exact h3

/-- C9 (amended): in the interaction block's message pipeline (lines
122-129), with the block's architectural widths: (i) an `idx_i` entry
outside `[0, atom_count)` is a fatal synchronous `IndexError` (raised at
the line-125 gather when the entry is also outside `[-n, n)`, else at the
line-129 grouped sum); (ii) an `idx_j` entry outside `[-n, n)` is a fatal
`IndexError` at the line-123 gather — entries in `[-n, 0)` wrap around
silently instead of failing; (iii) a filter whose width is neither `3F`
nor 1 is a fatal shape error at the `Wij * xj` multiply — width 1
broadcasts silently instead of failing; (iv) under indices in
`[0, atom_count)` and a width-`3F` filter, the pipeline raises no error. -/
theorem interaction_index_filter_errors :
    (∀ (p : InteractionP) (q mu Wij : T3) (idx_i idx_j : List Int) (n w : Nat),
      Rect3 q n 1 w → p.d1.lin.inF = w →
      p.d1.lin.bias.length = p.d1.lin.weight.length →
      p.d2.lin.inF = p.d1.lin.weight.length →
      p.d2.lin.bias.length = p.d2.lin.weight.length →
      p.d2.lin.weight.length = 3 * p.nAtomBasis →
      mu.length = n →
      Rect3 Wij idx_j.length 1 (3 * p.nAtomBasis) →
      idx_i.length = idx_j.length →
      (∀ i ∈ idx_j, 0 ≤ i ∧ i < (n : Int)) →
      (∃ i ∈ idx_i, ¬(0 ≤ i ∧ i < (n : Int))) →
      stageA p q mu Wij idx_i idx_j n = .error .index)
    ∧
    (∀ (p : InteractionP) (q mu Wij : T3) (idx_i idx_j : List Int) (n w : Nat),
      Rect3 q n 1 w → p.d1.lin.inF = w →
      p.d1.lin.bias.length = p.d1.lin.weight.length →
      p.d2.lin.inF = p.d1.lin.weight.length →
      p.d2.lin.bias.length = p.d2.lin.weight.length →
      (∃ i ∈ idx_j, ¬(-(n : Int) ≤ i ∧ i < (n : Int))) →
      stageA p q mu Wij idx_i idx_j n = .error .index)
    ∧
    (∀ (p : InteractionP) (q mu Wij : T3) (idx_i idx_j : List Int) (n w wf : Nat),
      Rect3 q n 1 w → p.d1.lin.inF = w →
      p.d1.lin.bias.length = p.d1.lin.weight.length →
      p.d2.lin.inF = p.d1.lin.weight.length →
      p.d2.lin.bias.length = p.d2.lin.weight.length →
      p.d2.lin.weight.length = 3 * p.nAtomBasis →
      mu.length = n →
      (∀ i ∈ idx_j, 0 ≤ i ∧ i < (n : Int)) →
      (∀ i ∈ idx_i, 0 ≤ i ∧ i < (n : Int)) →
      Rect3 Wij idx_j.length 1 wf →
      wf ≠ 3 * p.nAtomBasis → wf ≠ 1 → 0 < p.nAtomBasis → 0 < idx_j.length →
      stageA p q mu Wij idx_i idx_j n = .error .shape)
    ∧
    (∀ (p : InteractionP) (q mu Wij : T3) (idx_i idx_j : List Int) (n w : Nat),
      Rect3 q n 1 w → p.d1.lin.inF = w →
      p.d1.lin.bias.length = p.d1.lin.weight.length →
      p.d2.lin.inF = p.d1.lin.weight.length →
      p.d2.lin.bias.length = p.d2.lin.weight.length →
      p.d2.lin.weight.length = 3 * p.nAtomBasis →
      mu.length = n →
      (∀ i ∈ idx_j, 0 ≤ i ∧ i < (n : Int)) →
      (∀ i ∈ idx_i, 0 ≤ i ∧ i < (n : Int)) →
      Rect3 Wij idx_j.length 1 (3 * p.nAtomBasis) →
      idx_i.length = idx_j.length →
      ∃ r, stageA p q mu Wij idx_i idx_j n = .ok r) := by
  refine ⟨?_, ?_, ?_, ?_⟩
  · -- (i) bad idx_i entry
    intro p q mu Wij idx_i idx_j n w hq hd1 hd1b hd2 hd2b hd2w hmun hW hie hj hbadi
    obtain ⟨x0, hx0, hx0r⟩ := DenseM.run3_ok hq hd1 hd1b
    obtain ⟨x1, hx1, hx1r⟩ := DenseM.run3_ok hx0r hd2 hd2b
    unfold stageA
    rw [hx0]
    dsimp only
    rw [hx1]
    dsimp only
    have hjb : ∀ i ∈ idx_j, -((x1.length : Int)) ≤ i ∧ i < x1.length := by
      intro i hi
      have := hj i hi
      rw [hx1r.1]
      omega
    obtain ⟨xj, hxj, hxjlen, hxjmem⟩ := gather_ok hjb
    rw [hxj]
    dsimp only
    have hjmu : ∀ i ∈ idx_j, -((mu.length : Int)) ≤ i ∧ i < mu.length := by
      intro i hi
      have := hj i hi
      rw [hmun]
      omega
    obtain ⟨muj, hmuj, _, _⟩ := gather_ok hjmu
    rw [hmuj]
    dsimp only
    by_cases hfar : ∃ i ∈ idx_i, ¬(-(n : Int) ≤ i ∧ i < (n : Int))
    · have hbadfar : ∃ i ∈ idx_i, ¬(-((mu.length : Int)) ≤ i ∧ i < mu.length) := by
        obtain ⟨i0, hi0, hbk⟩ := hfar
        refine ⟨i0, hi0, ?_⟩
        rw [hmun]
        omega
      rw [gather_error hbadfar]
    · have hall : ∀ i ∈ idx_i, -(n : Int) ≤ i ∧ i < n := by
        intro i hi
        by_contra hcon
        exact hfar ⟨i, hi, hcon⟩
      have himu : ∀ i ∈ idx_i, -((mu.length : Int)) ≤ i ∧ i < mu.length := by
        intro i hi
        have := hall i hi
        rw [hmun]
        omega
      obtain ⟨mui, hmui, _, _⟩ := gather_ok himu
      rw [hmui]
      dsimp only
      have hxjr : Rect3 xj idx_j.length 1 (3 * p.nAtomBasis) := by
        refine ⟨hxjlen, ?_⟩
        intro m hm
        have := hx1r.2 m (hxjmem m hm)
        rw [hd2w] at this
        exact this
      obtain ⟨xx, hxx, hxxr⟩ := bmul3_exact hW hxjr
      rw [hxx]
      dsimp only
      obtain ⟨r3, hr3, hr3A, hr3B, hr3C⟩ := split3T3_ok hxxr
      obtain ⟨dq0, dmuR, dmumu⟩ := r3
      rw [hr3]
      dsimp only
      rw [scatterAdd_bad_index (by rw [hr3A.1]; exact hie.symm) hbadi]
  · -- (ii) idx_j entry outside [-n, n)
    intro p q mu Wij idx_i idx_j n w hq hd1 hd1b hd2 hd2b hbad
    obtain ⟨x0, hx0, hx0r⟩ := DenseM.run3_ok hq hd1 hd1b
    obtain ⟨x1, hx1, hx1r⟩ := DenseM.run3_ok hx0r hd2 hd2b
    unfold stageA
    rw [hx0]
    dsimp only
    rw [hx1]
    dsimp only
    refine Eq.trans ?_ rfl
    rw [gather_error (by rw [hx1r.1]; exact hbad)]
  · -- (iii) filter width neither 3F nor 1
    intro p q mu Wij idx_i idx_j n w wf hq hd1 hd1b hd2 hd2b hd2w hmun hj hi hW hwf1 hwf2 hF he
    obtain ⟨x0, hx0, hx0r⟩ := DenseM.run3_ok hq hd1 hd1b
    obtain ⟨x1, hx1, hx1r⟩ := DenseM.run3_ok hx0r hd2 hd2b
    unfold stageA
    rw [hx0]
    dsimp only
    rw [hx1]
    dsimp only
    have hjb : ∀ i ∈ idx_j, -((x1.length : Int)) ≤ i ∧ i < x1.length := by
      intro i hi2
      have := hj i hi2
      rw [hx1r.1]
      omega
    obtain ⟨xj, hxj, hxjlen, hxjmem⟩ := gather_ok hjb
    rw [hxj]
    dsimp only
    have hjmu : ∀ i ∈ idx_j, -((mu.length : Int)) ≤ i ∧ i < mu.length := by
      intro i hi2
      have := hj i hi2
      rw [hmun]
      omega
    obtain ⟨muj, hmuj, _, _⟩ := gather_ok hjmu
    rw [hmuj]
    dsimp only
    have himu : ∀ i ∈ idx_i, -((mu.length : Int)) ≤ i ∧ i < mu.length := by
      intro i hi2
      have := hi i hi2
      rw [hmun]
      omega
    obtain ⟨mui, hmui, _, _⟩ := gather_ok himu
    rw [hmui]
    dsimp only
    have hxjr : Rect3 xj idx_j.length 1 (3 * p.nAtomBasis) := by
      refine ⟨hxjlen, ?_⟩
      intro m hm
      have := hx1r.2 m (hxjmem m hm)
      rw [hd2w] at this
      exact this
    rw [bmul3_width_error hW hxjr he hwf1 hwf2 (by omega)]
  · -- (iv) valid indices, width-3F filter: no error
    intro p q mu Wij idx_i idx_j n w hq hd1 hd1b hd2 hd2b hd2w hmun hj hi hW hie
    obtain ⟨x0, hx0, hx0r⟩ := DenseM.run3_ok hq hd1 hd1b
    obtain ⟨x1, hx1, hx1r⟩ := DenseM.run3_ok hx0r hd2 hd2b
    unfold stageA
    rw [hx0]
    dsimp only
    rw [hx1]
    dsimp only
    have hjb : ∀ i ∈ idx_j, -((x1.length : Int)) ≤ i ∧ i < x1.length := by
      intro i hi2
      have := hj i hi2
      rw [hx1r.1]
      omega
    obtain ⟨xj, hxj, hxjlen, hxjmem⟩ := gather_ok hjb
    rw [hxj]
    dsimp only
    have hjmu : ∀ i ∈ idx_j, -((mu.length : Int)) ≤ i ∧ i < mu.length := by
      intro i hi2
      have := hj i hi2
      rw [hmun]
      omega
    obtain ⟨muj, hmuj, _, _⟩ := gather_ok hjmu
    rw [hmuj]
    dsimp only
    have himu : ∀ i ∈ idx_i, -((mu.length : Int)) ≤ i ∧ i < mu.length := by
      intro i hi2
      have := hi i hi2
      rw [hmun]
      omega
    obtain ⟨mui, hmui, _, _⟩ := gather_ok himu
    rw [hmui]
    dsimp only
    have hxjr : Rect3 xj idx_j.length 1 (3 * p.nAtomBasis) := by
      refine ⟨hxjlen, ?_⟩
      intro m hm
      have := hx1r.2 m (hxjmem m hm)
      rw [hd2w] at this
      exact this
    obtain ⟨xx, hxx, hxxr⟩ := bmul3_exact hW hxjr
    rw [hxx]
    dsimp only
    obtain ⟨r3, hr3, hr3A, hr3B, hr3C⟩ := split3T3_ok hxxr
    obtain ⟨dq0, dmuR, dmumu⟩ := r3
    rw [hr3]
    dsimp only
    obtain ⟨dq, hdq⟩ := scatterAdd_ok (by rw [hr3A.1]; exact hie.symm) hi
    rw [hdq]
    exact ⟨_, rfl⟩

/-- Interaction parameters with `n_atom_basis = 1` (constructor wiring of
lines 83-97, zero weights, identity activation) for the C9 instances. -/
def c9p : InteractionP :=
  ⟨1,
   ⟨⟨1, [[0]], [0]⟩, id⟩,
   ⟨⟨1, [[0], [0], [0]], [0, 0, 0]⟩, id⟩,
   ⟨⟨2, List.replicate 32 [0, 0], List.replicate 32 0⟩,
    ⟨32, [List.replicate 32 0], [0]⟩⟩,
   ⟨1, 1, ⟨1, List.replicate 32 [0], List.replicate 32 0⟩,
    ⟨32, [List.replicate 32 0], [0]⟩⟩⟩

def c9q : T3 := [[[1]], [[2]]]

def c9mu : T3 := [[[1, 2], [3, 4], [5, 6]], [[7, 8], [9, 1], [2, 3]]]

def c9w : T3 := [[[1, 2, 3]]]

/-- C9 counterexample: two silent acceptances the original claim rules
out.  First, the entry `-1` of `idx_j` lies outside
`[0, atom_count) = [0, 2)`, yet the message pipeline raises no error at the
point of violation (or at all): torch's negative indexing wraps `-1` around
to atom 1 and lines 122-129 complete successfully.  Second, a filter `Wij`
of width 1 — not the required `3F = 3` — is also accepted: the line-126
multiply broadcasts the width-1 filter across the width-3 messages and the
pipeline completes. -/
theorem stageA_silent_acceptances_example :
    isOkE (stageA c9p c9q c9mu c9w [0] [-1] 2) = true ∧
    isOkE (stageA c9p c9q c9mu [[[5]]] [0] [1] 2) = true :=
  ⟨rfl, rfl⟩

theorem interaction_index_filter_errors_witness :
    (Rect3 c9q 2 1 1 ∧ c9p.d1.lin.inF = 1
      ∧ c9p.d1.lin.bias.length = c9p.d1.lin.weight.length
      ∧ c9p.d2.lin.inF = c9p.d1.lin.weight.length
      ∧ c9p.d2.lin.bias.length = c9p.d2.lin.weight.length
      ∧ c9p.d2.lin.weight.length = 3 * c9p.nAtomBasis
      ∧ c9mu.length = 2
      ∧ (∀ i ∈ ([0] : List Int), 0 ≤ i ∧ i < (2 : Int))
      ∧ (∀ i ∈ ([1] : List Int), 0 ≤ i ∧ i < (2 : Int))
      ∧ Rect3 c9w ([0] : List Int).length 1 (3 * c9p.nAtomBasis)
      ∧ ([1] : List Int).length = ([0] : List Int).length)
    ∧ ∃ r, stageA c9p c9q c9mu c9w [1] [0] 2 = .ok r :=
  ⟨⟨by decide, by decide, by decide, by decide, by decide, by decide, by decide,
    by decide, by decide, by decide, by decide⟩,
   interaction_index_filter_errors.2.2.2 c9p c9q c9mu c9w [1] [0] 2 1 (by decide)
     (by decide) (by decide) (by decide) (by decide) (by decide) (by decide)
     (by decide) (by decide) (by decide) (by decide)⟩

theorem scatter_grouped_sum_props_witness :
    (scatterAdd c8vals c8idx 2 = .ok c8out)
    ∧ (c8out.length = 2
      ∧ (∀ (vals' : List T2) (idx' : List Int), vals'.length = idx'.length →
          (c8vals.zip c8idx).Perm (vals'.zip idx') →
          zerosLike2 (vals'.headD []) = zerosLike2 (c8vals.headD []) →
          scatterAdd vals' idx' 2 = .ok c8out)
      ∧ (∀ a : Nat, a < 2 → (∀ i ∈ c8idx, i ≠ (a : Int)) →
          c8out.getD a [] = zerosLike2 (c8vals.headD []))) :=
  ⟨by rfl, scatter_grouped_sum_props.2 c8vals c8idx 2 c8out (by rfl)⟩


/-! ### Claim C2: counterexample and witness -/

/-- Interaction parameters with `n_atom_basis = 1` for the C2 run (the
constructor wiring of lines 83-97, zero weights, identity activation). -/
def c2p : InteractionP :=
  ⟨1,
   ⟨⟨1, [[0]], [0]⟩, id⟩,
   ⟨⟨1, [[0], [0], [0]], [0, 0, 0]⟩, id⟩,
   ⟨⟨2, List.replicate 32 [0, 0], List.replicate 32 0⟩,
    ⟨32, [List.replicate 32 0], [0]⟩⟩,
   ⟨1, 1, ⟨1, List.replicate 32 [0], List.replicate 32 0⟩,
    ⟨32, [List.replicate 32 0], [0]⟩⟩⟩

def c2q : T3 := [[[3]]]

def c2mu : T3 := [[[2, 1, 0], [0, 1, 2]]]

def c2w : T3 := [[[2, 2, 2]]]

def c2dir : T2 := [[1, 0, 0]]

/-- C2 counterexample: on a concrete input (channel-major `mu` so the
line-130 compression succeeds), `PaiNNInteraction.forward` raises a
TypeError at the malformed `torch.transpose(mui)` call of line 136 and
never reaches the `mu = dmu + torch.transpose(...)` assignment of line
138, so the source forward has no "returned vector feature" at all. -/
theorem interaction_forward_no_triple_example :
    interactionForward c2p c2q c2mu c2w c2dir [0] [0] 1 =
      (.error .typeError, 1) := by
  rfl

/-- Concrete inputs for the C2 witness: one atom, scalar width 1, vector
width 1. -/
def c2tq : T3 := [[[2]]]

def c2tdq : T3 := [[[1]]]

def c2tdmu : T3 := [[[1], [2], [3]]]

def c2tcvi : T3 := [[[4, 5, 6]]]

theorem interaction_tail_replaces_mu_witness :
    (Rect3 c2tq 1 1 1 ∧ Rect3 c2tdq 1 1 1 ∧ Rect3 c2tdmu 1 3 1
      ∧ Rect3 c2tcvi 1 1 3 ∧ 0 < 1
      ∧ c2p.recon.l1.inF = 1
      ∧ c2p.recon.l1.bias.length = c2p.recon.l1.weight.length
      ∧ c2p.recon.l2.inF = c2p.recon.l1.weight.length
      ∧ c2p.recon.l2.bias.length = c2p.recon.l2.weight.length
      ∧ c2p.recon.l2.weight.length =
          c2p.recon.reconstructedChannels * c2p.recon.compressedChannels
      ∧ c2p.recon.compressedChannels = 1)
    ∧ ∃ q' mu' dtm,
        interactionTail c2p c2tq c2tdq c2tdmu c2tcvi = .ok (q', mu', dtm) ∧
        (∀ a < 1, ∀ i < 3, ∀ j < 1,
          at3 mu' a i j = at3 c2tdmu a i j + at3 c2tcvi a j i) ∧
        (∀ a < 1, ∀ f < 1, at3 q' a 0 f = at3 c2tq a 0 f + at3 c2tdq a 0 f) :=
  ⟨⟨by decide, by decide, by decide, by decide, by decide, by decide, by decide,
    by decide, by decide, by decide, by decide⟩,
   interaction_tail_replaces_mu c2p c2tq c2tdq c2tdmu c2tcvi 1 1 1
     (by decide) (by decide) (by decide) (by decide) (by decide)
     (by decide) (by decide) (by decide) (by decide) (by decide) (by decide)⟩


/-! ### Claim C3: the mixing block's scalar concatenation and broadcast -/

theorem LinearM.run3_rect {m : LinearM} {t : T3} {a b w : Nat}
    (hrect : Rect3 t a b w) (hin : m.inF = w)
    (hbias : m.bias.length = m.weight.length) :
    ∃ u, m.run3 t = .ok u ∧ Rect3 u a b m.weight.length := by
  obtain ⟨hlen, hrows⟩ := hrect
  have hgood : ∀ mm ∈ t, ∃ m2, emap m.run mm = .ok m2 ∧
      Rect2 m2 b m.weight.length := by
    intro mm hm
    have hinner : ∀ r ∈ mm, ∃ y, m.run r = .ok y ∧
        y.length = m.weight.length := by
      intro r hr
      rw [LinearM.run_ok (by rw [(hrows mm hm).2 r hr, hin])]
      refine ⟨_, rfl, ?_⟩
      simp [hbias]
    obtain ⟨m2, h1, h2, h3⟩ := emap_general hinner
    exact ⟨m2, h1, ⟨h2.trans (hrows mm hm).1, h3⟩⟩
  obtain ⟨u, hu, hulen, huP⟩ := emap_general hgood
  exact ⟨u, hu, hulen.trans hlen, huP⟩

theorem split2T2_ok : ∀ {m : T2} {sz : Nat}, (∀ r ∈ m, r.length = 2 * sz) →
    ∃ r, split2T2 sz m = .ok r ∧
      (r.1.length = m.length ∧ ∀ x ∈ r.1, x.length = sz) ∧
      (r.2.length = m.length ∧ ∀ x ∈ r.2, x.length = sz) := by
  intro m
  induction m with
  | nil =>
    intro sz _
    exact ⟨([], []), rfl, ⟨rfl, by simp⟩, ⟨rfl, by simp⟩⟩
  | cons r rs ih =>
    intro sz hrows
    obtain ⟨rr, hrr, hA, hB⟩ := ih (fun x hx => hrows x (by simp [hx]))
    obtain ⟨a, b⟩ := rr
    have hr := hrows r (by simp)
    simp only [split2T2]
    rw [show split2Row sz r = .ok (r.take sz, r.drop sz) from if_pos hr]
    dsimp only
    rw [hrr]
    dsimp only
    refine ⟨_, rfl, ⟨by simp [hA.1], ?_⟩, ⟨by simp [hB.1], ?_⟩⟩
    · intro x hx
      rcases List.mem_cons.mp hx with rfl | hmem
      · simp [hr]
        omega
      · exact hA.2 x hmem
    · intro x hx
      rcases List.mem_cons.mp hx with rfl | hmem
      · simp [hr]
        omega
      · exact hB.2 x hmem

theorem split2T3_ok : ∀ {t : T3} {a b sz : Nat}, Rect3 t a b (2 * sz) →
    ∃ r, split2T3 sz t = .ok r ∧ Rect3 r.1 a b sz ∧ Rect3 r.2 a b sz := by
  intro t
  induction t with
  | nil =>
    intro a b sz hrect
    obtain ⟨hlen, _⟩ := hrect
    exact ⟨([], []), rfl, ⟨by simpa using hlen, by simp⟩,
      ⟨by simpa using hlen, by simp⟩⟩
  | cons m ms ih =>
    intro a b sz hrect
    obtain ⟨hlen, hmem⟩ := hrect
    simp only [List.length_cons] at hlen
    have hrec : Rect3 ms ms.length b (2 * sz) :=
      ⟨rfl, fun x hx => hmem x (by simp [hx])⟩
    obtain ⟨rr, hrr, hA, hB⟩ := ih hrec
    obtain ⟨a1, b1⟩ := rr
    obtain ⟨r2, hr2, h2A, h2B⟩ := split2T2_ok (hmem m (by simp)).2
    obtain ⟨a2, b2⟩ := r2
    simp only [split2T3]
    rw [hr2]
    dsimp only
    rw [hrr]
    dsimp only
    refine ⟨_, rfl, ⟨by simp [hA.1]; omega, ?_⟩, ⟨by simp [hB.1]; omega, ?_⟩⟩
    · intro x hx
      rcases List.mem_cons.mp hx with rfl | hmem2
      · exact ⟨h2A.1.trans (hmem m (by simp)).1, h2A.2⟩
      · exact hA.2 x hmem2
    · intro x hx
      rcases List.mem_cons.mp hx with rfl | hmem2
      · exact ⟨h2B.1.trans (hmem m (by simp)).1, h2B.2⟩
      · exact hB.2 x hmem2

theorem catLast3_ok {t u : T3} {a b c1 c2 : Nat}
    (ht : Rect3 t a b c1) (hu : Rect3 u a b c2) :
    ∃ z, catLast3 t u = .ok z ∧ Rect3 z a b (c1 + c2) := by
  obtain ⟨ht1, ht2⟩ := ht
  obtain ⟨hu1, hu2⟩ := hu
  have hgood : ∀ p ∈ t.zip u, ∃ z,
      (fun m1 m2 => ezip (fun r s => (Except.ok (r ++ s) : Except Err T1)) m1 m2)
        p.1 p.2 = .ok z ∧ Rect2 z b (c1 + c2) := by
    intro p hp
    have h1 := ht2 p.1 (List.of_mem_zip hp).1
    have h2 := hu2 p.2 (List.of_mem_zip hp).2
    have hpair : ∀ q ∈ p.1.zip p.2, ∃ z,
        (fun r s => (Except.ok (r ++ s) : Except Err T1)) q.1 q.2 = .ok z ∧
          z.length = c1 + c2 := by
      intro q hq
      refine ⟨q.1 ++ q.2, rfl, ?_⟩
      rw [List.length_append, h1.2 q.1 (List.of_mem_zip hq).1,
        h2.2 q.2 (List.of_mem_zip hq).2]
    obtain ⟨z, hz, hzl, hzP⟩ :=
      ezip_general (g := fun r s => (Except.ok (r ++ s) : Except Err T1))
        (P := fun z : T1 => z.length = c1 + c2) (h1.1.trans h2.1.symm) hpair
    exact ⟨z, hz, hzl.trans h1.1, hzP⟩
  obtain ⟨z, hz, hzl, hzP⟩ :=
    ezip_general
      (g := fun m1 m2 => ezip (fun r s => (Except.ok (r ++ s) : Except Err T1)) m1 m2)
      (P := fun z : T2 => Rect2 z b (c1 + c2)) (ht1.trans hu1.symm) hgood
  exact ⟨z, hz, hzl.trans ht1, hzP⟩

theorem muVNorm_rect {e : ℝ} {t : T3} {a w : Nat} (ht : Rect3 t a 3 w) :
    Rect3 (muVNorm e t) a 1 w := by
  obtain ⟨h1, h2⟩ := ht
  refine ⟨by simp [muVNorm, h1], ?_⟩
  intro m hm
  obtain ⟨rows, hrows, rfl⟩ := List.mem_map.mp (by simpa [muVNorm] using hm)
  refine ⟨rfl, ?_⟩
  intro r hr
  simp only [List.mem_singleton] at hr
  subst hr
  rw [List.length_map]
  refine sumRows_length ?_ ?_
  · intro hnil
    have h3 := (h2 rows hrows).1
    rw [List.map_eq_nil_iff] at hnil
    rw [hnil] at h3
    simp at h3
  · intro r2 hr2
    obtain ⟨r0, hr0, rfl⟩ := List.mem_map.mp hr2
    rw [List.length_map]
    exact (h2 rows hrows).2 r0 hr0

theorem bcast3_ok {f : ℝ → ℝ → ℝ} {x y : T3} {a b b2 c c2 : Nat}
    (hx : Rect3 x a b c) (hy : Rect3 y a b2 c2)
    (hb : b = b2 ∨ b = 1 ∨ b2 = 1) (hc : c = c2 ∨ c = 1 ∨ c2 = 1)
    (hb0 : 0 < b) (hb1 : 0 < b2) (hc0 : 0 < c) (hc1 : 0 < c2) :
    ∃ z, bzipL (bzipL (bzipR f)) x y = .ok z ∧ Rect3 z a (max b b2) (max c c2) := by
  obtain ⟨hx1, hx2⟩ := hx
  obtain ⟨hy1, hy2⟩ := hy
  have hgood : ∀ p ∈ x.zip y, ∃ z, bzipL (bzipR f) p.1 p.2 = .ok z ∧
      Rect2 z (max b b2) (max c c2) := by
    intro p hp
    have h1 := hx2 p.1 (List.of_mem_zip hp).1
    have h2 := hy2 p.2 (List.of_mem_zip hp).2
    obtain ⟨z, hz, hzl, hzP⟩ :=
      bzipL_general h1.1 h2.1 hb hb0 hb1 (fun r1 hr1 r2 hr2 =>
        bzipR_general (h1.2 r1 hr1) (h2.2 r2 hr2) hc hc0 hc1)
    exact ⟨z, hz, hzl, hzP⟩
  obtain ⟨z, hz, hzl, hzP⟩ := ezip_general (hx1.trans hy1.symm) hgood
  refine ⟨z, ?_, hzl.trans hx1, hzP⟩
  rw [bzipL_eq_ezip (hx1.trans hy1.symm)]
  exact hz

theorem bmul3_bcast {x y : T3} {a b b2 c c2 : Nat}
    (hx : Rect3 x a b c) (hy : Rect3 y a b2 c2)
    (hb : b = b2 ∨ b = 1 ∨ b2 = 1) (hc : c = c2 ∨ c = 1 ∨ c2 = 1)
    (hb0 : 0 < b) (hb1 : 0 < b2) (hc0 : 0 < c) (hc1 : 0 < c2) :
    ∃ z, bmul3 x y = .ok z ∧ Rect3 z a (max b b2) (max c c2) := by
  unfold bmul3 bmul2
  exact bcast3_ok hx hy hb hc hb0 hb1 hc0 hc1

theorem badd3_bcast {x y : T3} {a b b2 c c2 : Nat}
    (hx : Rect3 x a b c) (hy : Rect3 y a b2 c2)
    (hb : b = b2 ∨ b = 1 ∨ b2 = 1) (hc : c = c2 ∨ c = 1 ∨ c2 = 1)
    (hb0 : 0 < b) (hb1 : 0 < b2) (hc0 : 0 < c) (hc1 : 0 < c2) :
    ∃ z, badd3 x y = .ok z ∧ Rect3 z a (max b b2) (max c c2) := by
  unfold badd3 badd2
  exact bcast3_ok hx hy hb hc hb0 hb1 hc0 hc1

theorem badd2_row1_bcast {x y : T2} {c : Nat} (hx : Rect2 x 1 1) (hy : Rect2 y 1 c)
    (hc : c ≠ 1) :
    badd2 x y = .ok [(y.headD []).map (fun t => at2 x 0 0 + t)] := by
  obtain ⟨xr, hxr⟩ := List.length_eq_one.mp hx.1
  obtain ⟨v, hv⟩ := List.length_eq_one.mp (hx.2 xr (by rw [hxr]; simp))
  obtain ⟨yr, hyr⟩ := List.length_eq_one.mp hy.1
  have hyl : yr.length = c := hy.2 yr (by rw [hyr]; simp)
  subst hv
  subst hxr
  subst hyr
  have hbz : bzipR (· + ·) [v] yr = .ok (yr.map (fun t => v + t)) := by
    unfold bzipR
    rw [if_neg (by simp [hyl]; omega)]
    cases yr with
    | nil => rfl
    | cons b u =>
      cases u with
      | nil => simp at hyl; omega
      | cons b2 u2 => rfl
  unfold badd2
  rw [bzipL_eq_ezip (by simp)]
  simp only [ezip, hbz]
  rfl

theorem badd3_row1_bcast {x y : T3} {a c : Nat}
    (hx : Rect3 x a 1 1) (hy : Rect3 y a 1 c) (hc : c ≠ 1) :
    badd3 x y = .ok (List.zipWith
      (fun m1 m2 => [(m2.headD []).map (fun t => at2 m1 0 0 + t)]) x y) := by
  unfold badd3
  rw [bzipL_eq_ezip (hx.1.trans hy.1.symm)]
  refine ezip_ok_of (hx.1.trans hy.1.symm) ?_
  intro p hp
  exact badd2_row1_bcast (hx.2 p.1 (List.of_mem_zip hp).1)
    (hy.2 p.2 (List.of_mem_zip hp).2) hc

theorem row3_badd3_row1_bcast {x y : T3} {a c : Nat} {z : T3}
    (hx : Rect3 x a 1 1) (hy : Rect3 y a 1 c) (hc : c ≠ 1)
    (hz : badd3 x y = .ok z) {i : Nat} (hi : i < a) :
    row3 z i 0 = ((y.getD i []).headD []).map (fun t => at3 x i 0 0 + t) := by
  rw [badd3_row1_bcast hx hy hc] at hz
  have hzeq := Except.ok.inj hz
  subst hzeq
  unfold row3
  rw [getD_zipWith_lt _ (by rw [hx.1]; exact hi) (by rw [hy.1]; exact hi) [] []]
  rw [List.getD_cons_zero]
  rfl

theorem matVecB_ok {m : T2} {v : T1} {r c c2 : Nat}
    (hm : Rect2 m r c) (hv : v.length = c2)
    (hc : c = c2 ∨ c = 1 ∨ c2 = 1) (hc0 : 0 < c) (hc1 : 0 < c2) :
    ∃ z, matVecB m v = .ok z ∧ z.length = r := by
  obtain ⟨h1, h2⟩ := hm
  have hgood : ∀ row ∈ m, ∃ z,
      (fun row2 =>
        match bzipR (· * ·) row2 v with
        | Except.error e => Except.error e
        | Except.ok prods => Except.ok prods.sum) row = Except.ok z ∧ True := by
    intro row hrow
    obtain ⟨pz, hpz, _⟩ := bzipR_general (h2 row hrow) hv hc hc0 hc1
    dsimp only
    rw [hpz]
    exact ⟨pz.sum, rfl, trivial⟩
  obtain ⟨z, hz, hzl, _⟩ := emap_general hgood
  exact ⟨z, hz, hzl.trans h1⟩

theorem einsumTV_ok {dtm : T4} {qT : T3} {n f g c : Nat}
    (hd : Rect4 dtm n f 3 3) (hq : Rect3 qT n g c)
    (hf : f = g ∨ f = 1 ∨ g = 1) (hc : c = 3 ∨ c = 1)
    (hf0 : 0 < f) (hf1 : 0 < g) :
    ∃ tv, einsumTV dtm qT = .ok tv ∧ Rect3 tv n (max f g) 3 := by
  obtain ⟨hd1, hd2⟩ := hd
  obtain ⟨hq1, hq2⟩ := hq
  have hgood : ∀ p ∈ dtm.zip qT, ∃ z,
      bzipL matVecB p.1 p.2 = .ok z ∧ Rect2 z (max f g) 3 := by
    intro p hp
    have h1 := hd2 p.1 (List.of_mem_zip hp).1
    have h2 := hq2 p.2 (List.of_mem_zip hp).2
    obtain ⟨z, hz, hzl, hzP⟩ :=
      bzipL_general h1.1 h2.1 hf hf0 hf1 (fun mat hmat qrow hqrow =>
        matVecB_ok (h1.2 mat hmat) (h2.2 qrow hqrow) (by omega) (by omega)
          (by omega))
    exact ⟨z, hz, hzl, hzP⟩
  obtain ⟨tv, htv, htvl, htvP⟩ := ezip_general (hd1.trans hq1.symm) hgood
  exact ⟨tv, htv, htvl.trans hd1, htvP⟩


/-- C3 (corrected): in `PaiNNMixing.forward` the scalar update on line 191
is `q = q + torch.cat([dq_intra, dqmu_intra], dim=-1)`, a torch broadcast
sum of shapes `[n, 1, F]` and `[n, 1, 2F]` that is only defined for
`F = 1`: in that case the round maps scalar width 1 to width 2, each output
channel being the old scalar plus one of the two intra-atomic terms — the
claimed doubling.  For every block width `F ≥ 2` the same line raises a
shape error instead of doubling the width, so the orchestrator never emits
a `scalar_representation` of width `F` doubled `N` times (see the
counterexample). -/
theorem mixing_scalar_broadcast_doubling (p : MixingP) (q mu : T3) (dtm : T4)
    (n : Nat) (hF : p.nAtomBasis = 1)
    (hq : Rect3 q n 1 1) (hmu : Rect3 mu n 3 1) (hdtm : Rect4 dtm n 1 3 3)
    (hmixIn : p.muMix.inF = 1) (hmixB : p.muMix.bias.length = p.muMix.weight.length)
    (hmixW : p.muMix.weight.length = 2)
    (hc1In : p.c1.lin.inF = 2) (hc1B : p.c1.lin.bias.length = p.c1.lin.weight.length)
    (hc1W : p.c1.lin.weight.length = 1)
    (hc2In : p.c2.lin.inF = 1) (hc2B : p.c2.lin.bias.length = p.c2.lin.weight.length)
    (hc2W : p.c2.lin.weight.length = 3) :
    ∃ q' mu', mixingForward p q mu dtm = .ok (q', mu') ∧
      Rect3 q' n 1 2 ∧
      ∀ a < n, ∃ u v, row3 q' a 0 = [at3 q a 0 0 + u, at3 q a 0 0 + v] := by
  obtain ⟨mm, hmm, hmmR0⟩ := LinearM.run3_rect hmu hmixIn hmixB
  rw [hmixW] at hmmR0
  have hmmR : Rect3 mm n 3 (2 * 1) := by simpa using hmmR0
  obtain ⟨⟨muV, muW⟩, hsp, hVR, hWR⟩ := split2T3_ok hmmR
  have hnormR : Rect3 (muVNorm p.eps muV) n 1 1 := muVNorm_rect hVR
  obtain ⟨ctx, hctx, hctxR0⟩ := catLast3_ok hq hnormR
  have hctxR : Rect3 ctx n 1 2 := by simpa using hctxR0
  obtain ⟨y0, hy0, hy0R0⟩ := DenseM.run3_ok hctxR hc1In hc1B
  rw [hc1W] at hy0R0
  obtain ⟨y1, hy1, hy1R0⟩ := DenseM.run3_ok hy0R0 hc2In hc2B
  rw [hc2W] at hy1R0
  have hy1R : Rect3 y1 n 1 (3 * 1) := by simpa using hy1R0
  obtain ⟨⟨dqIntra, dmuIntra0, dqmuIntra0⟩, hsp3, hAq, hAm, hAqm⟩ :=
    split3T3_ok hy1R
  obtain ⟨dmuIntra, hdmuI, hdmuIR0⟩ :=
    bmul3_bcast hAm hWR (by omega) (by omega) (by omega) (by omega) (by omega)
      (by omega)
  have hdmuIR : Rect3 dmuIntra n 3 1 := by simpa using hdmuIR0
  obtain ⟨prods, hprods, hprodsR⟩ := bmul3_exact hVR hWR
  have hsumR : Rect3 (prods.map (fun rows => [sumRows rows])) n 1 1 := by
    refine ⟨by simp [hprodsR.1], ?_⟩
    intro m hm2
    obtain ⟨rows, hrows, rfl⟩ := List.mem_map.mp hm2
    refine ⟨rfl, ?_⟩
    intro r hr
    simp only [List.mem_singleton] at hr
    subst hr
    refine sumRows_length ?_ (fun r2 hr2 => (hprodsR.2 rows hrows).2 r2 hr2)
    intro hnil
    have h3 := (hprodsR.2 rows hrows).1
    rw [hnil] at h3
    simp at h3
  obtain ⟨dqmuIntra, hdqmuI, hdqmuIR⟩ := bmul3_exact hAqm hsumR
  obtain ⟨dcat, hdcat, hdcatR0⟩ := catLast3_ok hAq hdqmuIR
  have hdcatR : Rect3 dcat n 1 2 := by simpa using hdcatR0
  obtain ⟨q2, hq2, hq2R0⟩ :=
    badd3_bcast hq hdcatR (by omega) (by omega) (by omega) (by omega) (by omega)
      (by omega)
  have hq2R : Rect3 q2 n 1 2 := by simpa using hq2R0
  have hqT : Rect3 (transpose12 q2) n 2 1 := transpose12_rect hq2R (by omega)
  obtain ⟨tv, htv, htvR0⟩ :=
    einsumTV_ok hdtm hqT (by omega) (by omega) (by omega) (by omega)
  have htvR : Rect3 tv n 2 3 := by simpa using htvR0
  have htvT : Rect3 (transpose12 tv) n 3 2 := transpose12_rect htvR (by omega)
  obtain ⟨mcat, hmcat, hmcatR0⟩ := catLast3_ok hdmuIR htvT
  have hmcatR : Rect3 mcat n 3 3 := by simpa using hmcatR0
  obtain ⟨mu2, hmu2, hmu2R⟩ :=
    badd3_bcast hmu hmcatR (by omega) (by omega) (by omega) (by omega) (by omega)
      (by omega)
  refine ⟨q2, mu2, ?_, hq2R, ?_⟩
  · unfold mixingForward
    rw [hmm]
    dsimp only
    rw [hF, hsp]
    dsimp only
    rw [hctx]
    dsimp only
    rw [hy0]
    dsimp only
    rw [hy1]
    dsimp only
    rw [hsp3]
    dsimp only
    rw [hdmuI]
    dsimp only
    rw [hprods]
    dsimp only
    rw [hdqmuI]
    dsimp only
    rw [hdcat]
    dsimp only
    rw [hq2]
    dsimp only
    rw [htv]
    dsimp only
    rw [hmcat]
    dsimp only
    rw [hmu2]
  · intro i hi
    have hrow := row3_badd3_row1_bcast hq hdcatR (by omega) hq2 hi
    have hmemd : dcat.getD i [] ∈ dcat :=
      getD_mem_lt (by rw [hdcatR.1]; exact hi) []
    obtain ⟨drow, hdrow⟩ := List.length_eq_one.mp (hdcatR.2 _ hmemd).1
    have hd2 : drow.length = 2 :=
      (hdcatR.2 _ hmemd).2 drow (by rw [hdrow]; simp)
    obtain ⟨d0, d1, hd01⟩ := List.length_eq_two.mp hd2
    refine ⟨d0, d1, ?_⟩
    rw [hrow, hdrow, List.headD_cons, hd01]
    rfl


/-- Mixing parameters with `n_atom_basis = 2` (`F = 2`), built as the
constructor on lines 147-164 does: `mu_channel_mix = Linear(2, 4)` without
bias terms used, context net `Dense(4, 2) → Dense(2, 6)`, zero weights,
identity activation, `eps = 1`. -/
def c3wp : MixingP :=
  ⟨2,
   ⟨⟨4, List.replicate 2 (List.replicate 4 0), List.replicate 2 0⟩, id⟩,
   ⟨⟨2, List.replicate 6 (List.replicate 2 0), List.replicate 6 0⟩, id⟩,
   ⟨2, List.replicate 4 (List.replicate 2 0), List.replicate 4 0⟩,
   1⟩

def c3wq : T3 := [[[0, 0]]]

def c3wmu : T3 := [[[0, 0], [0, 0], [0, 0]]]

/-- A `PaiNN` module assembled exactly as the constructor on lines 209-283
does for `n_atom_basis = 4`, `n_interactions = 1`, `shared_filters =
False`: the blocks receive `self.n_atom_basis = 4 // 2 = 2`, the filter
net maps `n_rbf = 4` features to `1 * 3 * 4 = 12`, the default embedding
is `nn.Embedding(100, 4)`; all weights zero, constant radial basis and
cutoff, identity activation. -/
def painn3 : PaiNNP :=
  ⟨4, 1,
   List.replicate 100 (List.replicate 4 0),
   [],
   fun _ => [0, 0, 0, 0],
   fun _ => 1,
   ⟨4, List.replicate 12 [0, 0, 0, 0], List.replicate 12 0⟩,
   false,
   [⟨2,
     ⟨⟨2, List.replicate 2 (List.replicate 2 0), List.replicate 2 0⟩, id⟩,
     ⟨⟨2, List.replicate 6 (List.replicate 2 0), List.replicate 6 0⟩, id⟩,
     ⟨⟨4, List.replicate 32 (List.replicate 4 0), List.replicate 32 0⟩,
      ⟨32, List.replicate 2 (List.replicate 32 0), List.replicate 2 0⟩⟩,
     ⟨2, 2, ⟨2, List.replicate 32 (List.replicate 2 0), List.replicate 32 0⟩,
      ⟨32, List.replicate 4 (List.replicate 32 0), List.replicate 4 0⟩⟩⟩],
   [⟨2,
     ⟨⟨4, List.replicate 2 (List.replicate 4 0), List.replicate 2 0⟩, id⟩,
     ⟨⟨2, List.replicate 6 (List.replicate 2 0), List.replicate 6 0⟩, id⟩,
     ⟨2, List.replicate 4 (List.replicate 2 0), List.replicate 4 0⟩,
     1⟩]⟩

/-- C3 counterexample: with block width `F = 2` and well-shaped inputs
(`q : [1, 1, 2]`, `mu : [1, 3, 2]`), `PaiNNMixing.forward` raises a shape
error at the line-191 sum `q + cat(dq_intra, dqmu_intra)` (widths 2 vs 4,
neither 1), so the round does not double the scalar width; and the
orchestrator built with `n_atom_basis = 4`, one round, on the spec's
end-to-end example, fails with a shape error instead of emitting a
`scalar_representation` of width `4 * 2`. -/
theorem mixing_forward_width2_shape_error :
    mixingForward c3wp c3wq c3wmu [] = .error .shape ∧
    painnForward painn3 [1, 1] [[1, 0, 0], [-1, 0, 0]] [0, 1] [1, 0] =
      (.error .shape, 0) :=
  ⟨rfl, rfl⟩

/-- Mixing parameters with `n_atom_basis = 1` (`F = 1`) for the C3 witness:
`mu_channel_mix = Linear(1, 2)`, context net `Dense(2, 1) → Dense(1, 3)`,
zero weights, identity activation, `eps = 1`. -/
def c3p : MixingP :=
  ⟨1,
   ⟨⟨2, [[0, 0]], [0]⟩, id⟩,
   ⟨⟨1, [[0], [0], [0]], [0, 0, 0]⟩, id⟩,
   ⟨1, [[0], [0]], [0, 0]⟩,
   1⟩

def c3q : T3 := [[[5]]]

def c3mu : T3 := [[[1], [0], [2]]]

def c3dtm : T4 := [[[[0, 0, 0], [0, 0, 0], [0, 0, 0]]]]

theorem mixing_scalar_broadcast_doubling_witness :
    (c3p.nAtomBasis = 1 ∧ Rect3 c3q 1 1 1 ∧ Rect3 c3mu 1 3 1
      ∧ Rect4 c3dtm 1 1 3 3
      ∧ c3p.muMix.inF = 1 ∧ c3p.muMix.bias.length = c3p.muMix.weight.length
      ∧ c3p.muMix.weight.length = 2
      ∧ c3p.c1.lin.inF = 2 ∧ c3p.c1.lin.bias.length = c3p.c1.lin.weight.length
      ∧ c3p.c1.lin.weight.length = 1
      ∧ c3p.c2.lin.inF = 1 ∧ c3p.c2.lin.bias.length = c3p.c2.lin.weight.length
      ∧ c3p.c2.lin.weight.length = 3)
    ∧ ∃ q' mu', mixingForward c3p c3q c3mu c3dtm = .ok (q', mu') ∧
        Rect3 q' 1 1 2 ∧
        ∀ a < 1, ∃ u v, row3 q' a 0 = [at3 c3q a 0 0 + u, at3 c3q a 0 0 + v] :=
  ⟨⟨by decide, by decide, by decide, by decide, by decide, by decide, by decide,
    by decide, by decide, by decide, by decide, by decide, by decide⟩,
   mixing_scalar_broadcast_doubling c3p c3q c3mu c3dtm 1 (by decide) (by decide)
     (by decide) (by decide) (by decide) (by decide) (by decide) (by decide)
     (by decide) (by decide) (by decide) (by decide) (by decide)⟩

end
